import Mathlib

/-
Verification of the Iterable Playback Engine of foxglove-studio.

The definitions below are a shallow embedding of
src/packages/studio-base/src/players/IterablePlayer/IterablePlayer.ts
and of the MessagePipelineProvider listener contract.

Timestamps are modelled as total nanosecond counts (natural numbers):
the rostime operations used by the player (add, compare, clampTime,
fromNanoSec, toNanoSec, subtract) are exact integer arithmetic on
normalized (sec, nsec) pairs, which is isomorphic to arithmetic on the
total nanosecond count.
-/

namespace IterablePlayerModel

/-- clampTime from rostime: returns start if time is before start, end if
time is after end, otherwise time. -/
def clampTime (t lo hi : Nat) : Nat :=
  if t < lo then lo else if hi < t then hi else t

/-- A message event: receive time in nanoseconds plus an opaque payload tag
that lets two messages with equal receive times be distinguished. -/
structure Msg where
  rt : Nat
  payload : Nat
deriving DecidableEq, Repr

/-- A source's recorded log is sorted: message events appear in
non-decreasing receive-time order. -/
def SortedR (l : List Msg) : Prop :=
  l.Pairwise (fun a b => a.rt ≤ b.rt)

/-- The messages a bounded messageIterator call over the inclusive range
[a+1, b] yields: all source messages with a < receiveTime ≤ b, in source
order.  Iterator bounds in the player are always of the form
(lastMessageTime + 1 nanosecond) to some end, hence the strict lower bound. -/
def inRange (a b : Nat) (l : List Msg) : List Msg :=
  l.filter (fun m => decide (a < m.rt ∧ m.rt ≤ b))

theorem mem_inRange {a b : Nat} {l : List Msg} {x : Msg} :
    x ∈ inRange a b l ↔ x ∈ l ∧ a < x.rt ∧ x.rt ≤ b := by
  simp [inRange]

theorem inRange_nil {a b : Nat} {l : List Msg} (h : b ≤ a) : inRange a b l = [] := by
  apply List.filter_eq_nil_iff.mpr
  intro x _
  simp only [decide_eq_true_eq, not_and]
  omega

theorem inRange_sorted {a b : Nat} {l : List Msg} (h : SortedR l) :
    SortedR (inRange a b l) :=
  List.Pairwise.sublist (List.filter_sublist l) h

/-- If a range of a list is empty, so is any sub-range. -/
theorem inRange_mono_nil {a c a' c' : Nat} {l : List Msg}
    (h : inRange a c l = []) (ha : a ≤ a') (hc : c' ≤ c) : inRange a' c' l = [] := by
  apply List.filter_eq_nil_iff.mpr
  intro x hx
  have h2 := List.filter_eq_nil_iff.mp h x hx
  simp only [decide_eq_true_eq, not_and] at *
  omega

/-- A sorted list is the concatenation of its elements at or below a
threshold with its elements above the threshold. -/
theorem sorted_split_filter {b : Nat} {l : List Msg} (h : SortedR l) :
    l = l.filter (fun m => decide (m.rt ≤ b)) ++ l.filter (fun m => decide (b < m.rt)) := by
  induction l with
  | nil => rfl
  | cons m tl ih =>
    obtain ⟨hm, htl⟩ := List.pairwise_cons.mp h
    by_cases hb : m.rt ≤ b
    · have e1 : (m :: tl).filter (fun x => decide (x.rt ≤ b))
          = m :: tl.filter (fun x => decide (x.rt ≤ b)) := by
        rw [List.filter_cons_of_pos]
        simpa using hb
      have e2 : (m :: tl).filter (fun x => decide (b < x.rt))
          = tl.filter (fun x => decide (b < x.rt)) := by
        rw [List.filter_cons_of_neg]
        simpa using hb
      rw [e1, e2, List.cons_append]
      exact congrArg (m :: ·) (ih htl)
    · have hall : ∀ x ∈ m :: tl, b < x.rt := by
        intro x hx
        rcases List.mem_cons.mp hx with rfl | hx'
        · omega
        · exact lt_of_lt_of_le (by omega) (hm x hx')
      have e1 : (m :: tl).filter (fun x => decide (x.rt ≤ b)) = [] := by
        apply List.filter_eq_nil_iff.mpr
        intro x hx
        have := hall x hx
        simp only [decide_eq_true_eq]
        omega
      have e2 : (m :: tl).filter (fun x => decide (b < x.rt)) = m :: tl := by
        apply List.filter_eq_self.mpr
        intro x hx
        simpa using hall x hx
      rw [e1, e2, List.nil_append]

/-- Splitting a bounded read of a sorted log at an intermediate time. -/
theorem inRange_split {a b c : Nat} {l : List Msg}
    (h : SortedR l) (hab : a ≤ b) (hbc : b ≤ c) :
    inRange a c l = inRange a b l ++ inRange b c l := by
  have h0 : inRange a c l
      = (inRange a c l).filter (fun m => decide (m.rt ≤ b))
        ++ (inRange a c l).filter (fun m => decide (b < m.rt)) :=
    sorted_split_filter (inRange_sorted h)
  have h1 : (inRange a c l).filter (fun m => decide (m.rt ≤ b)) = inRange a b l := by
    unfold inRange
    rw [List.filter_filter]
    apply List.filter_congr
    intro x _
    simp only [← Bool.decide_and, decide_eq_decide]
    omega
  have h2 : (inRange a c l).filter (fun m => decide (b < m.rt)) = inRange b c l := by
    unfold inRange
    rw [List.filter_filter]
    apply List.filter_congr
    intro x _
    simp only [← Bool.decide_and, decide_eq_decide]
    omega
  rw [← h1, ← h2]
  exact h0

instance (l : List Msg) : Decidable (SortedR l) := by
  unfold SortedR
  exact List.instDecidablePairwise l

/-- The first element of a sorted list bounds every element from below. -/
theorem sorted_head_min {m : Msg} {tl : List Msg} (h : SortedR (m :: tl)) :
    ∀ x ∈ m :: tl, m.rt ≤ x.rt := by
  intro x hx
  rcases List.mem_cons.mp hx with rfl | hx'
  · exact le_refl _
  · exact (List.pairwise_cons.mp h).1 x hx'

/-- The last element of a sorted list bounds every element from above. -/
theorem sorted_getLast_max : ∀ {l : List Msg}, SortedR l → (hne : l ≠ []) →
    ∀ x ∈ l, x.rt ≤ (l.getLast hne).rt := by
  intro l
  induction l with
  | nil => exact fun _ hne => absurd rfl hne
  | cons m tl ih =>
    intro h hne x hx
    obtain ⟨hm, htl⟩ := List.pairwise_cons.mp h
    cases tl with
    | nil =>
      have hxm : x = m := by simpa using hx
      subst hxm
      simp [List.getLast]
    | cons y ys =>
      rw [List.getLast_cons (by simp : y :: ys ≠ [])]
      rcases List.mem_cons.mp hx with rfl | hx'
      · have hmem : (y :: ys).getLast (by simp) ∈ y :: ys := List.getLast_mem _
        exact hm _ hmem
      · exact ih htl (by simp) x hx'

/-- Outcome of consuming the current forward iterator inside one _tick:
either the iterator was exhausted (done), remembering the final value of
the local lastMessageTime, or a message past the tick end time was read
and buffered into _lastMessage, leaving the iterator with a remainder. -/
inductive ConsumeRes where
  | exhausted (lmt : Nat) (batch : List Msg)
  | buffered (m : Msg) (rest : List Msg) (batch : List Msg)
deriving DecidableEq, Repr

/-- The inner read loop of _tick over the current forward iterator
(IterablePlayer.ts lines 754-794, no problems, no state-change request):
each message first updates lastMessageTime; a message past the inclusive
tick end time is stored as _lastMessage and the loop breaks; otherwise it
is pushed onto the tick's batch. -/
def consumeIter (endT : Nat) : List Msg → Nat → List Msg → ConsumeRes
  | [], lmt, acc => .exhausted lmt acc
  | m :: rest, _, acc =>
    if endT < m.rt then .buffered m rest acc
    else consumeIter endT rest m.rt (acc ++ [m])

theorem consumeIter_exhausted {endT : Nat} : ∀ {R : List Msg} {lmt0 : Nat} {acc : List Msg}
    {lmt' : Nat} {batch : List Msg},
    consumeIter endT R lmt0 acc = .exhausted lmt' batch →
    batch = acc ++ R ∧ (∀ x ∈ R, x.rt ≤ endT) ∧
      ((R = [] ∧ lmt' = lmt0) ∨ (∃ h : R ≠ [], lmt' = (R.getLast h).rt)) := by
  intro R
  induction R with
  | nil =>
    intro lmt0 acc lmt' batch h
    simp only [consumeIter, ConsumeRes.exhausted.injEq] at h
    obtain ⟨rfl, rfl⟩ := h
    refine ⟨by simp, by simp, Or.inl ⟨rfl, rfl⟩⟩
  | cons m rest ih =>
    intro lmt0 acc lmt' batch h
    simp only [consumeIter] at h
    split at h
    · cases h
    · rename_i hle
      obtain ⟨hb, hall, hlast⟩ := ih h
      refine ⟨by simpa using hb, ?_, ?_⟩
      · intro x hx
        rcases List.mem_cons.mp hx with rfl | hx'
        · omega
        · exact hall x hx'
      · rcases hlast with ⟨rfl, rfl⟩ | ⟨hne, hl⟩
        · exact Or.inr ⟨by simp, by simp [List.getLast]⟩
        · refine Or.inr ⟨by simp, ?_⟩
          rw [List.getLast_cons hne]
          exact hl

theorem consumeIter_buffered {endT : Nat} : ∀ {R : List Msg} {lmt0 : Nat} {acc : List Msg}
    {m : Msg} {rest : List Msg} {batch : List Msg},
    consumeIter endT R lmt0 acc = .buffered m rest batch →
    ∃ pre, R = pre ++ m :: rest ∧ batch = acc ++ pre ∧
      (∀ x ∈ pre, x.rt ≤ endT) ∧ endT < m.rt := by
  intro R
  induction R with
  | nil =>
    intro lmt0 acc m rest batch h
    simp [consumeIter] at h
  | cons y ytl ih =>
    intro lmt0 acc m rest batch h
    simp only [consumeIter] at h
    split at h
    · rename_i hgt
      cases h
      exact ⟨[], by simp, by simp, by simp, hgt⟩
    · rename_i hle
      obtain ⟨pre, hR, hb, hall, hm⟩ := ih h
      refine ⟨y :: pre, by simp [hR], by simpa using hb, ?_, hm⟩
      intro x hx
      rcases List.mem_cons.mp hx with rfl | hx'
      · omega
      · exact hall x hx'

/-- The lastMessageTime resulting from an exhausted iterator read is above
any lower bound satisfied by the initial lastMessageTime and every message
of the iterator.  Used for termination of the outer iterator-creation loop. -/
theorem consumeIter_exhausted_lt {endT b : Nat} {R : List Msg} {lmt0 : Nat} {acc : List Msg}
    {lmt' : Nat} {batch : List Msg}
    (hb : ∀ x ∈ R, b < x.rt) (hb0 : b < lmt0)
    (h : consumeIter endT R lmt0 acc = .exhausted lmt' batch) : b < lmt' := by
  obtain ⟨-, -, hlast⟩ := consumeIter_exhausted h
  rcases hlast with ⟨rfl, rfl⟩ | ⟨hne, hl⟩
  · exact hb0
  · rw [hl]
    exact hb _ (List.getLast_mem hne)

/-- Exhausting an iterator whose remainder covers the source range (a, iE]:
the whole remainder joins the batch, the consumed range closes at the final
lastMessageTime, and no source message is left in (lmt', iE]. -/
theorem consume_range_exhausted {src : List Msg} {endT a iE lmt0 : Nat}
    {R acc : List Msg} {lmt' : Nat} {batch : List Msg}
    (hs : SortedR src) (hR : R = inRange a iE src) (ha : a ≤ lmt0) (hiE : lmt0 ≤ iE)
    (h : consumeIter endT R lmt0 acc = .exhausted lmt' batch) :
    batch = acc ++ R ∧ a ≤ lmt' ∧ lmt' ≤ iE ∧ R = inRange a lmt' src ∧
      inRange lmt' iE src = [] ∧ (R ≠ [] → lmt' ≤ endT) ∧ (R = [] → lmt' = lmt0) := by
  obtain ⟨hb, hall, hlast⟩ := consumeIter_exhausted h
  rcases hlast with ⟨hRnil, rfl⟩ | ⟨hne, hl⟩
  · subst hRnil
    have hnil : inRange a iE src = [] := hR.symm
    refine ⟨by simpa using hb, ha, hiE, ?_, ?_, by simp, fun _ => rfl⟩
    · exact (inRange_mono_nil hnil (le_refl a) hiE).symm
    · exact inRange_mono_nil hnil ha (le_refl iE)
  · have hmem : R.getLast hne ∈ R := List.getLast_mem hne
    have hmemR : R.getLast hne ∈ inRange a iE src := hR ▸ hmem
    have hbounds := mem_inRange.mp hmemR
    have hsR : SortedR R := hR ▸ inRange_sorted hs
    have hmax : ∀ x ∈ R, x.rt ≤ lmt' := by
      intro x hx
      rw [hl]
      exact sorted_getLast_max hsR hne x hx
    have halmt : a < lmt' := by rw [hl]; exact hbounds.2.1
    have hlmtiE : lmt' ≤ iE := by rw [hl]; exact hbounds.2.2
    have hmid : inRange lmt' iE src = [] := by
      apply List.eq_nil_iff_forall_not_mem.mpr
      intro x hx
      have hxb := mem_inRange.mp hx
      have hxR : x ∈ R := by
        rw [hR]
        exact mem_inRange.mpr ⟨hxb.1, by omega, hxb.2.2⟩
      have := hmax x hxR
      omega
    have hRsplit : R = inRange a lmt' src := by
      have := inRange_split (a := a) (b := lmt') (c := iE) hs (by omega) hlmtiE
      rw [hR, this, hmid, List.append_nil]
    refine ⟨hb, by omega, hlmtiE, hRsplit, hmid, fun _ => ?_, fun hRnil => absurd hRnil hne⟩
    rw [hl]
    exact hall _ hmem

/-- Reading a message past the tick end from an iterator covering (a, iE]:
the batch gains exactly the source messages in (a, endT], and the buffered
message together with the iterator remainder is exactly the source content
of (endT, iE]. -/
theorem consume_range_buffered {src : List Msg} {endT a iE lmt0 : Nat}
    {R acc : List Msg} {m : Msg} {rest batch : List Msg}
    (hs : SortedR src) (hR : R = inRange a iE src) (haE : a ≤ endT)
    (h : consumeIter endT R lmt0 acc = .buffered m rest batch) :
    endT < iE ∧ batch = acc ++ inRange a endT src ∧
      m :: rest = inRange endT iE src ∧ endT < m.rt := by
  obtain ⟨pre, hRsplit, hb, hpre, hmgt⟩ := consumeIter_buffered h
  have hsR : SortedR R := hR ▸ inRange_sorted hs
  have hmm : m ∈ R := by rw [hRsplit]; simp
  have hmb := mem_inRange.mp (hR ▸ hmm)
  have hEiE : endT < iE := by
    have := hmb.2.2
    omega
  -- every element of m :: rest is above endT (m itself, and rest by sortedness)
  have hrest : ∀ x ∈ m :: rest, endT < x.rt := by
    intro x hx
    rcases List.mem_cons.mp hx with rfl | hx'
    · exact hmgt
    · have hsub : (m :: rest).Sublist R := by
        rw [hRsplit]
        exact (List.sublist_append_right pre (m :: rest))
      have hsmr : SortedR (m :: rest) := List.Pairwise.sublist hsub hsR
      have := (List.pairwise_cons.mp hsmr).1 x hx'
      omega
  -- pre is the filter of R at or below endT; m :: rest is the filter above
  have hfil : R.filter (fun x => decide (x.rt ≤ endT)) = pre := by
    rw [hRsplit, List.filter_append]
    have e1 : pre.filter (fun x => decide (x.rt ≤ endT)) = pre :=
      List.filter_eq_self.mpr (fun x hx => by simpa using hpre x hx)
    have e2 : (m :: rest).filter (fun x => decide (x.rt ≤ endT)) = [] :=
      List.filter_eq_nil_iff.mpr (fun x hx => by
        have := hrest x hx
        simp only [decide_eq_true_eq]
        omega)
    rw [e1, e2, List.append_nil]
  have hfil2 : R.filter (fun x => decide (endT < x.rt)) = m :: rest := by
    rw [hRsplit, List.filter_append]
    have e1 : pre.filter (fun x => decide (endT < x.rt)) = [] :=
      List.filter_eq_nil_iff.mpr (fun x hx => by
        have := hpre x hx
        simp only [decide_eq_true_eq]
        omega)
    have e2 : (m :: rest).filter (fun x => decide (endT < x.rt)) = m :: rest :=
      List.filter_eq_self.mpr (fun x hx => by simpa using hrest x hx)
    rw [e1, e2, List.nil_append]
  have hpreRange : pre = inRange a endT src := by
    rw [← hfil, hR]
    unfold inRange
    rw [List.filter_filter]
    apply List.filter_congr
    intro x _
    simp only [← Bool.decide_and, decide_eq_decide]
    omega
  have hmrRange : m :: rest = inRange endT iE src := by
    rw [← hfil2, hR]
    unfold inRange
    rw [List.filter_filter]
    apply List.filter_congr
    intro x _
    simp only [← Bool.decide_and, decide_eq_decide]
    omega
  exact ⟨hEiE, by rw [hb, hpreRange], hmrRange, hmgt⟩

/-- The persistent forward iterator of the player (_tickIterator): its
unconsumed remainder plus the inclusive end bound it was created with. -/
structure IterSt where
  rem : List Msg
  iE : Nat
deriving DecidableEq, Repr

/-- Result of the read loop of one _tick: the tick's message batch, the
buffered _lastMessage (if a message beyond the tick end was read), and the
surviving _tickIterator. -/
structure TickEnd where
  batch : List Msg
  last : Option Msg
  iter : Option IterSt
deriving DecidableEq, Repr

/-- The iterator-creation part of the _tick read loop (lines 728-769):
with no current iterator, a new one is created from lastMessageTime + 1
(unless that is already past the tick end) bounded by the iterator horizon
(_iteratorDurationNanos); it is consumed; on exhaustion at or before the
tick end a fresh iterator continues from the new lastMessageTime, on
exhaustion past the tick end the loop breaks keeping the drained iterator,
and on an over-limit message the loop breaks buffering it. -/
def runIter (src : List Msg) (endT iterDur lmt : Nat) (acc : List Msg) : TickEnd :=
  if endT < lmt + 1 then ⟨acc, none, none⟩
  else
    match hC : consumeIter endT (inRange lmt (lmt + 1 + iterDur) src) (lmt + 1 + iterDur) acc with
    | .buffered m rest batch => ⟨batch, some m, some ⟨rest, lmt + 1 + iterDur⟩⟩
    | .exhausted lmt' batch =>
      if h2 : lmt' ≤ endT then runIter src endT iterDur lmt' batch
      else ⟨batch, none, some ⟨[], lmt + 1 + iterDur⟩⟩
termination_by endT + 1 - lmt
decreasing_by
  have hlt : lmt < lmt' := by
    apply consumeIter_exhausted_lt (b := lmt) ?_ (by omega) hC
    intro x hx
    exact (mem_inRange.mp hx).2.1
  omega

/-- Shape of the player's buffered-message / iterator state at the end of a
tick whose end time was endT. -/
def tickPost (src : List Msg) (endT : Nat) : Option Msg → Option IterSt → Prop
  | none, none => True
  | none, some it => it.rem = inRange endT it.iE src ∧ endT ≤ it.iE
  | some m, some it => m :: it.rem = inRange endT it.iE src ∧ endT ≤ it.iE
  | some _, none => False

theorem runIter_spec_aux {src : List Msg} {endT iterDur : Nat} (hs : SortedR src) :
    ∀ (n lmt : Nat), endT + 1 - lmt ≤ n → ∀ acc,
      (runIter src endT iterDur lmt acc).batch = acc ++ inRange lmt endT src ∧
      tickPost src endT (runIter src endT iterDur lmt acc).last
        (runIter src endT iterDur lmt acc).iter := by
  intro n
  induction n with
  | zero =>
    intro lmt hle acc
    rw [runIter]
    rw [if_pos (by omega : endT < lmt + 1)]
    exact ⟨by rw [inRange_nil (by omega), List.append_nil], trivial⟩
  | succ k ih =>
    intro lmt hle acc
    rw [runIter]
    by_cases h0 : endT < lmt + 1
    · rw [if_pos h0]
      exact ⟨by rw [inRange_nil (by omega), List.append_nil], trivial⟩
    · rw [if_neg h0]
      push_neg at h0
      split
      · -- buffered branch
        rename_i m rest batch hC
        obtain ⟨hEiE, hb, hmr, hmgt⟩ := consume_range_buffered hs rfl (by omega) hC
        refine ⟨hb, ?_, ?_⟩
        · show m :: rest = inRange endT (lmt + 1 + iterDur) src
          exact hmr
        · show endT ≤ lmt + 1 + iterDur
          omega
      · -- exhausted branch
        rename_i lmt' batch hC
        obtain ⟨hb, halmt, hlmtiE, hRR, hmid, hne', hnil'⟩ :=
          consume_range_exhausted hs rfl (by omega) (by omega) hC
        have hlt : lmt < lmt' := by
          apply consumeIter_exhausted_lt (b := lmt) ?_ (by omega) hC
          intro x hx
          exact (mem_inRange.mp hx).2.1
        by_cases h2 : lmt' ≤ endT
        · rw [dif_pos h2]
          obtain ⟨ihb, ihp⟩ := ih lmt' (by omega) batch
          refine ⟨?_, ihp⟩
          rw [ihb, hb, hRR, List.append_assoc]
          rw [← inRange_split hs (by omega) h2]
        · rw [dif_neg h2]
          push_neg at h2
          have hRnil : inRange lmt (lmt + 1 + iterDur) src = [] := by
            rcases hRe : inRange lmt (lmt + 1 + iterDur) src with _ | ⟨y, ys⟩
            · rfl
            · exfalso
              have := hne' (by rw [hRe]; simp)
              omega
          have hlmt'eq : lmt' = lmt + 1 + iterDur := hnil' hRnil
          refine ⟨?_, ?_, ?_⟩
          · show batch = acc ++ inRange lmt endT src
            rw [hb, hRnil, List.append_nil,
              inRange_mono_nil hRnil (le_refl _) (by omega), List.append_nil]
          · show ([] : List Msg) = inRange endT (lmt + 1 + iterDur) src
            exact (inRange_mono_nil hRnil (by omega) (le_refl _)).symm
          · show endT ≤ lmt + 1 + iterDur
            omega

theorem runIter_spec {src : List Msg} {endT iterDur : Nat} (hs : SortedR src)
    (lmt : Nat) (acc : List Msg) :
    (runIter src endT iterDur lmt acc).batch = acc ++ inRange lmt endT src ∧
      tickPost src endT (runIter src endT iterDur lmt acc).last
        (runIter src endT iterDur lmt acc).iter :=
  runIter_spec_aux hs (endT + 1 - lmt) lmt (le_refl _) acc

/-- The per-tick persistent player fields used by _tick: _currentTime,
_lastMessage and _tickIterator. -/
structure TickState where
  cur : Nat
  last : Option Msg
  iter : Option IterSt
deriving DecidableEq, Repr

/-- The read loop of _tick after the buffered _lastMessage has been folded
in: consume the existing forward iterator if there is one, then fall into
the iterator-creation loop.  lmt is the local lastMessageTime, acc the
message batch accumulated so far. -/
def tickLoop (src : List Msg) (endT iterDur lmt : Nat) (acc : List Msg) :
    Option IterSt → List Msg × TickState
  | none =>
    let te := runIter src endT iterDur lmt acc
    (te.batch, ⟨endT, te.last, te.iter⟩)
  | some it =>
    match consumeIter endT it.rem lmt acc with
    | .buffered m rest batch => (batch, ⟨endT, some m, some ⟨rest, it.iE⟩⟩)
    | .exhausted lmt' batch =>
      if lmt' ≤ endT then
        let te := runIter src endT iterDur lmt' batch
        (te.batch, ⟨endT, te.last, te.iter⟩)
      else (batch, ⟨endT, none, some ⟨[], it.iE⟩⟩)

/-- The body of one uninterrupted _tick (lines 693-803) given its already
computed inclusive end time endT: a buffered _lastMessage still beyond the
end yields an empty batch (keeping message and iterator); otherwise the
buffered message opens the batch, and the read loop runs. -/
def tickBody (src : List Msg) (endT iterDur : Nat) (st : TickState) : List Msg × TickState :=
  match st.last with
  | some m =>
    if endT < m.rt then ([], ⟨endT, some m, st.iter⟩)
    else tickLoop src endT iterDur m.rt [m] st.iter
  | none => tickLoop src endT iterDur st.cur [] st.iter

/-- One uninterrupted _tick (lines 670-803) with a requested simulated-time
window of range nanoseconds: the inclusive tick end time is
clampTime(currentTime + range, start, end), then the tick body runs.
Returns the emitted batch and the new player tick state (currentTime,
_lastMessage, _tickIterator). -/
def tick (src : List Msg) (iterDur startT endTotal : Nat) (st : TickState) (range : Nat) :
    List Msg × TickState :=
  tickBody src (clampTime (st.cur + range) startT endTotal) iterDur st

/-- Invariant tying the tick state to the source log: currentTime is within
the data range, and the buffered message plus the iterator remainder are
exactly the source messages in (currentTime, iteratorEnd]. -/
def INV (src : List Msg) (startT endTotal : Nat) (st : TickState) : Prop :=
  startT ≤ st.cur ∧ st.cur ≤ endTotal ∧ tickPost src st.cur st.last st.iter

theorem clampTime_tick {cur range startT endTotal : Nat}
    (h1 : startT ≤ cur) :
    clampTime (cur + range) startT endTotal = min (cur + range) endTotal := by
  unfold clampTime
  split
  · omega
  · split <;> omega

/-- Consuming an existing iterator covering (a, iE] starting with an empty
batch at lastMessageTime a, then running the iterator-creation loop, emits
exactly the source messages of (a, endT]. -/
theorem tickLoop_some_spec {src : List Msg} {endT iterDur a iE : Nat} {R : List Msg}
    (hs : SortedR src) (hR : R = inRange a iE src) (haiE : a ≤ iE) (haE : a ≤ endT) :
    (tickLoop src endT iterDur a [] (some ⟨R, iE⟩)).1 = inRange a endT src ∧
    (tickLoop src endT iterDur a [] (some ⟨R, iE⟩)).2.cur = endT ∧
    tickPost src endT (tickLoop src endT iterDur a [] (some ⟨R, iE⟩)).2.last
      (tickLoop src endT iterDur a [] (some ⟨R, iE⟩)).2.iter := by
  dsimp only [tickLoop]
  rcases hC : consumeIter endT R a [] with ⟨lmt', batch⟩ | ⟨m, rest, batch⟩
  all_goals dsimp only
  · -- exhausted
    obtain ⟨hb, halmt, hlmtiE, hRR, hmid, hne', hnil'⟩ :=
      consume_range_exhausted hs hR (le_refl a) haiE hC
    have hlmtE : lmt' ≤ endT := by
      rcases hRe : R with _ | ⟨y, ys⟩
      · have := hnil' hRe
        omega
      · exact hne' (by rw [hRe]; simp)
    rw [if_pos hlmtE]
    obtain ⟨hrb, hrp⟩ := runIter_spec hs lmt' batch
    refine ⟨?_, rfl, hrp⟩
    show (runIter src endT iterDur lmt' batch).batch = inRange a endT src
    rw [hrb, hb, List.nil_append, hRR]
    rw [← inRange_split hs halmt hlmtE]
  · -- buffered
    obtain ⟨hEiE, hb, hmr, hmgt⟩ := consume_range_buffered hs hR haE hC
    refine ⟨?_, rfl, ?_, ?_⟩
    · show batch = inRange a endT src
      rw [hb, List.nil_append]
    · show m :: rest = inRange endT iE src
      exact hmr
    · show endT ≤ iE
      omega

/-- Folding the buffered _lastMessage into the batch before consuming the
iterator remainder is the same as consuming the full iterator content from
scratch, provided the buffered message is within the tick end. -/
theorem tickLoop_fold {src : List Msg} {endT iterDur a iE : Nat} {m : Msg} {rem : List Msg}
    (hm : ¬ endT < m.rt) :
    tickLoop src endT iterDur a [] (some ⟨m :: rem, iE⟩)
      = tickLoop src endT iterDur m.rt [m] (some ⟨rem, iE⟩) := by
  dsimp only [tickLoop]
  rw [show consumeIter endT (m :: rem) a [] = consumeIter endT rem m.rt [m] by
    simp [consumeIter, hm]]

theorem tickBody_spec {src : List Msg} {endT iterDur : Nat} {st : TickState}
    (hs : SortedR src) (hcurE : st.cur ≤ endT)
    (hpost : tickPost src st.cur st.last st.iter) :
    (tickBody src endT iterDur st).1 = inRange st.cur endT src ∧
    (tickBody src endT iterDur st).2.cur = endT ∧
    tickPost src endT (tickBody src endT iterDur st).2.last
      (tickBody src endT iterDur st).2.iter := by
  rcases st with ⟨cur, last, iter⟩
  dsimp only at hcurE hpost ⊢
  rcases last with _ | m
  · rcases iter with _ | ⟨R, iE⟩
    · -- no buffered message, no iterator: pure creation loop
      dsimp only [tickBody, tickLoop]
      obtain ⟨hrb, hrp⟩ := @runIter_spec src endT iterDur hs cur []
      exact ⟨by rw [hrb, List.nil_append], rfl, hrp⟩
    · -- no buffered message, existing iterator
      obtain ⟨hrem, hciE⟩ := hpost
      dsimp only at hrem hciE
      dsimp only [tickBody]
      exact tickLoop_some_spec hs hrem hciE hcurE
  · rcases iter with _ | ⟨R, iE⟩
    · exact absurd hpost id
    · obtain ⟨hrem, hciE⟩ := hpost
      dsimp only at hrem hciE
      dsimp only [tickBody]
      by_cases hmE : endT < m.rt
      · rw [if_pos hmE]
        -- the buffered message is still beyond this tick's end: empty batch
        have hmiE : m.rt ≤ iE := (mem_inRange.mp (hrem ▸ List.mem_cons_self m R)).2.2
        have hnil2 : inRange cur endT src = [] := by
          apply List.eq_nil_iff_forall_not_mem.mpr
          intro x hx
          have hxb := mem_inRange.mp hx
          have hxR : x ∈ m :: R := by
            rw [hrem]
            exact mem_inRange.mpr ⟨hxb.1, hxb.2.1, by omega⟩
          have hsR : SortedR (m :: R) := hrem ▸ inRange_sorted hs
          have := sorted_head_min hsR x hxR
          omega
        refine ⟨hnil2.symm, rfl, ?_, ?_⟩
        · show m :: R = inRange endT iE src
          have hsplit := inRange_split (a := cur) (b := endT) (c := iE) hs hcurE (by omega)
          rw [hrem, hsplit, hnil2, List.nil_append]
        · show endT ≤ iE
          omega
      · rw [if_neg hmE]
        rw [← tickLoop_fold (a := cur) hmE]
        exact tickLoop_some_spec hs hrem hciE hcurE

/-- The main single-tick lemma: an uninterrupted tick emits exactly the
source messages in (currentTime, newCurrentTime], preserves the player
invariant, and advances currentTime to clamp(currentTime + range) within
the data end. -/
theorem tick_spec {src : List Msg} {iterDur startT endTotal : Nat} {st : TickState} {range : Nat}
    (hs : SortedR src) (hinv : INV src startT endTotal st) :
    (tick src iterDur startT endTotal st range).1
      = inRange st.cur (tick src iterDur startT endTotal st range).2.cur src ∧
    INV src startT endTotal (tick src iterDur startT endTotal st range).2 ∧
    st.cur ≤ (tick src iterDur startT endTotal st range).2.cur ∧
    (tick src iterDur startT endTotal st range).2.cur = min (st.cur + range) endTotal := by
  obtain ⟨hsc, hce, hpost⟩ := hinv
  have hclamp := @clampTime_tick st.cur range startT endTotal hsc
  have hcurE : st.cur ≤ clampTime (st.cur + range) startT endTotal := by omega
  obtain ⟨hb, hcur, hp⟩ :=
    @tickBody_spec src (clampTime (st.cur + range) startT endTotal) iterDur st
      hs hcurE hpost
  unfold tick
  refine ⟨?_, ⟨by omega, by omega, ?_⟩, by omega, by omega⟩
  · rw [hcur]
    exact hb
  · rw [hcur]
    exact hp

/-- A sequence of uninterrupted playback ticks (the loop of _statePlay with
no seek, no subscription change, no error): each entry of rs is the
requested simulated-time window of one tick.  Returns the list of emitted
batches and the final tick state. -/
def runTicks (src : List Msg) (iterDur startT endTotal : Nat) :
    TickState → List Nat → List (List Msg) × TickState
  | st, [] => ([], st)
  | st, r :: rs =>
    let t := tick src iterDur startT endTotal st r
    let rest := runTicks src iterDur startT endTotal t.2 rs
    (t.1 :: rest.1, rest.2)

theorem runTicks_spec {src : List Msg} {iterDur startT endTotal : Nat}
    (hs : SortedR src) :
    ∀ (rs : List Nat) (st : TickState), INV src startT endTotal st →
      (runTicks src iterDur startT endTotal st rs).1.flatten
        = inRange st.cur (runTicks src iterDur startT endTotal st rs).2.cur src ∧
      INV src startT endTotal (runTicks src iterDur startT endTotal st rs).2 ∧
      st.cur ≤ (runTicks src iterDur startT endTotal st rs).2.cur := by
  intro rs
  induction rs with
  | nil =>
    intro st hinv
    refine ⟨?_, hinv, le_refl _⟩
    show List.flatten [] = inRange st.cur st.cur src
    rw [inRange_nil (le_refl _)]
    rfl
  | cons r rs ih =>
    intro st hinv
    obtain ⟨hb, hinv', hle, -⟩ := @tick_spec src iterDur startT endTotal st r hs hinv
    obtain ⟨ihb, ihinv, ihle⟩ := ih (tick src iterDur startT endTotal st r).2 hinv'
    dsimp only [runTicks]
    refine ⟨?_, ihinv, le_trans hle ihle⟩
    rw [List.flatten_cons, hb, ihb]
    exact (inRange_split hs hle ihle).symm

/-- C3: for any sequence of uninterrupted playback ticks, concatenating the
message batches emitted by successive _tick calls yields exactly the ordered
sequence of messages a single bounded read over
[initial currentTime + 1ns, final currentTime] would produce — no message
is skipped and none is delivered twice, for any choice of tick window
sizes. -/
theorem C3_uninterrupted_ticks_no_gap_no_dup (src : List Msg)
    (iterDur startT endTotal c0 : Nat) (rs : List Nat)
    (hs : SortedR src) (h0 : startT ≤ c0) (h1 : c0 ≤ endTotal) :
    (runTicks src iterDur startT endTotal ⟨c0, none, none⟩ rs).1.flatten
      = inRange c0 (runTicks src iterDur startT endTotal ⟨c0, none, none⟩ rs).2.cur src :=
  (runTicks_spec hs rs ⟨c0, none, none⟩ ⟨h0, h1, trivial⟩).1

theorem C3_witness :
    SortedR [⟨5, 0⟩, ⟨9, 1⟩, ⟨9, 2⟩, ⟨17, 3⟩] ∧ 0 ≤ 0 ∧ 0 ≤ 20 ∧
    (runTicks [⟨5, 0⟩, ⟨9, 1⟩, ⟨9, 2⟩, ⟨17, 3⟩] 3 0 20 ⟨0, none, none⟩ [7, 9, 30]).1.flatten
      = inRange 0
          (runTicks [⟨5, 0⟩, ⟨9, 1⟩, ⟨9, 2⟩, ⟨17, 3⟩] 3 0 20 ⟨0, none, none⟩ [7, 9, 30]).2.cur
          [⟨5, 0⟩, ⟨9, 1⟩, ⟨9, 2⟩, ⟨17, 3⟩] :=
  ⟨by decide, by decide, by decide,
    C3_uninterrupted_ticks_no_gap_no_dup [⟨5, 0⟩, ⟨9, 1⟩, ⟨9, 2⟩, ⟨17, 3⟩] 3 0 20 0 [7, 9, 30]
      (by decide) (by decide) (by decide)⟩

/-- C5: within one emitted tick batch, message events are in non-decreasing
receiveTime order; and across consecutive ticks, no message of the later
tick's batch has a receiveTime below the end time of the previous tick's
window (the currentTime reached by the previous tick). -/
theorem C5_batch_ordering (src : List Msg)
    (iterDur startT endTotal c0 : Nat) (rs : List Nat) (r1 r2 : Nat)
    (hs : SortedR src) (h0 : startT ≤ c0) (h1 : c0 ≤ endTotal) :
    SortedR (tick src iterDur startT endTotal
        (runTicks src iterDur startT endTotal ⟨c0, none, none⟩ rs).2 r1).1 ∧
    SortedR (tick src iterDur startT endTotal
        (tick src iterDur startT endTotal
          (runTicks src iterDur startT endTotal ⟨c0, none, none⟩ rs).2 r1).2 r2).1 ∧
    ∀ m ∈ (tick src iterDur startT endTotal
        (tick src iterDur startT endTotal
          (runTicks src iterDur startT endTotal ⟨c0, none, none⟩ rs).2 r1).2 r2).1,
      (tick src iterDur startT endTotal
        (runTicks src iterDur startT endTotal ⟨c0, none, none⟩ rs).2 r1).2.cur ≤ m.rt := by
  obtain ⟨-, hinv0, -⟩ := @runTicks_spec src iterDur startT endTotal hs rs ⟨c0, none, none⟩
    ⟨h0, h1, trivial⟩
  obtain ⟨hb1, hinv1, -, -⟩ := @tick_spec src iterDur startT endTotal _ r1 hs hinv0
  obtain ⟨hb2, hinv2, -, -⟩ := @tick_spec src iterDur startT endTotal _ r2 hs hinv1
  refine ⟨?_, ?_, ?_⟩
  · rw [hb1]
    exact inRange_sorted hs
  · rw [hb2]
    exact inRange_sorted hs
  · intro m hm
    rw [hb2] at hm
    have := (mem_inRange.mp hm).2.1
    omega

theorem C5_witness :
    SortedR [⟨5, 0⟩, ⟨9, 1⟩, ⟨14, 2⟩] ∧ 0 ≤ 2 ∧ 2 ≤ 20 ∧
    (SortedR (tick [⟨5, 0⟩, ⟨9, 1⟩, ⟨14, 2⟩] 4 0 20
        (runTicks [⟨5, 0⟩, ⟨9, 1⟩, ⟨14, 2⟩] 4 0 20 ⟨2, none, none⟩ [6]).2 5).1 ∧
      SortedR (tick [⟨5, 0⟩, ⟨9, 1⟩, ⟨14, 2⟩] 4 0 20
        (tick [⟨5, 0⟩, ⟨9, 1⟩, ⟨14, 2⟩] 4 0 20
          (runTicks [⟨5, 0⟩, ⟨9, 1⟩, ⟨14, 2⟩] 4 0 20 ⟨2, none, none⟩ [6]).2 5).2 8).1 ∧
      ∀ m ∈ (tick [⟨5, 0⟩, ⟨9, 1⟩, ⟨14, 2⟩] 4 0 20
          (tick [⟨5, 0⟩, ⟨9, 1⟩, ⟨14, 2⟩] 4 0 20
            (runTicks [⟨5, 0⟩, ⟨9, 1⟩, ⟨14, 2⟩] 4 0 20 ⟨2, none, none⟩ [6]).2 5).2 8).1,
        (tick [⟨5, 0⟩, ⟨9, 1⟩, ⟨14, 2⟩] 4 0 20
          (runTicks [⟨5, 0⟩, ⟨9, 1⟩, ⟨14, 2⟩] 4 0 20 ⟨2, none, none⟩ [6]).2 5).2.cur ≤ m.rt) :=
  ⟨by decide, by decide, by decide,
    C5_batch_ordering [⟨5, 0⟩, ⟨9, 1⟩, ⟨14, 2⟩] 4 0 20 2 [6] 5 8
      (by decide) (by decide) (by decide)⟩

/-- The interleaving while-loop of loadBlocks (lines 929-938): while either
array is non-empty, shift one id from post and push it, then shift one id
from pre and push it.  When post is exhausted each remaining loop iteration
pushes exactly one pre id, so the loop appends the rest of pre in order. -/
def interleaveIds : List Nat → List Nat → List Nat
  | [], pre => pre
  | a :: as, [] => a :: interleaveIds as []
  | a :: as, b :: bs => a :: b :: interleaveIds as bs

/-- The pre/post id arrays of loadBlocks (lines 916-924): one pass over the
block indexes pushing ids below the start block to pre and ids above it to
post. -/
def buildPrePost (n p : Nat) : List Nat × List Nat :=
  (List.range n).foldl
    (fun acc idx =>
      if idx < p then (acc.1 ++ [idx], acc.2)
      else if p < idx then (acc.1, acc.2 ++ [idx])
      else acc)
    ([], [])

/-- The block-cache load queue built by loadBlocks (lines 916-938) for
start block id p over n blocks: the start block first, then pre reversed
and post interleaved, post first. -/
def loadQueueOf (n p : Nat) : List Nat :=
  p :: interleaveIds (buildPrePost n p).2 (buildPrePost n p).1.reverse

/-- The load order as the spec words it (refinement counterpart for C6):
after p, alternate one bucket after p and one before p — p+1, p-1, p+2,
p-2, ... — continuing with the remaining direction once the other side is
exhausted.  i is the current distance from p. -/
def specLoadAux (n p i : Nat) : List Nat :=
  if p + i < n then
    if i ≤ p then (p + i) :: (p - i) :: specLoadAux n p (i + 1)
    else (p + i) :: specLoadAux n p (i + 1)
  else if i ≤ p then (p - i) :: specLoadAux n p (i + 1)
  else []
termination_by n + p + 1 - i
decreasing_by all_goals omega

/-- The spec's outward-from-pivot sequence: p, p+1, p-1, p+2, p-2, ... -/
def specLoadOrder (n p : Nat) : List Nat := p :: specLoadAux n p 1

theorem buildPrePost_foldl (p : Nat) : ∀ (l : List Nat) (a b : List Nat),
    l.foldl
      (fun acc idx =>
        if idx < p then (acc.1 ++ [idx], acc.2)
        else if p < idx then (acc.1, acc.2 ++ [idx])
        else acc)
      (a, b)
    = (a ++ l.filter (fun x => decide (x < p)), b ++ l.filter (fun x => decide (p < x))) := by
  intro l
  induction l with
  | nil => intro a b; simp
  | cons idx tl ih =>
    intro a b
    by_cases h1 : idx < p
    · have e1 : (tl.filter (fun x => decide (x < p))) = (tl.filter (fun x => decide (x < p))) := rfl
      simp only [List.foldl_cons, if_pos h1]
      rw [ih]
      rw [List.filter_cons_of_pos (by simpa using h1),
        List.filter_cons_of_neg (by simp; omega)]
      simp
    · by_cases h2 : p < idx
      · simp only [List.foldl_cons, if_neg h1, if_pos h2]
        rw [ih]
        rw [List.filter_cons_of_neg (by simpa using h1),
          List.filter_cons_of_pos (by simpa using h2)]
        simp
      · simp only [List.foldl_cons, if_neg h1, if_neg h2]
        rw [ih]
        rw [List.filter_cons_of_neg (by simpa using h1),
          List.filter_cons_of_neg (by simpa using h2)]

theorem range_filter_lt (p : Nat) : ∀ n : Nat,
    (List.range n).filter (fun x => decide (x < p)) = List.range (min p n) := by
  intro n
  induction n with
  | zero => simp
  | succ k ih =>
    rw [List.range_succ, List.filter_append, ih]
    by_cases h : k < p
    · rw [List.filter_cons_of_pos (by simpa using h)]
      have : min p (k + 1) = k + 1 := by omega
      have hk : min p k = k := by omega
      rw [this, hk, List.range_succ]
      simp
    · rw [List.filter_cons_of_neg (by simpa using h)]
      have : min p (k + 1) = p := by omega
      have hk : min p k = p := by omega
      rw [this, hk]
      simp

theorem range_filter_gt (p : Nat) : ∀ n : Nat,
    (List.range n).filter (fun x => decide (p < x)) = List.range' (p + 1) (n - (p + 1)) := by
  intro n
  induction n with
  | zero => simp
  | succ k ih =>
    rw [List.range_succ, List.filter_append, ih]
    by_cases h : p < k
    · rw [List.filter_cons_of_pos (by simpa using h)]
      have hk : k + 1 - (p + 1) = (k - (p + 1)) + 1 := by omega
      rw [hk, List.range'_concat]
      have : p + 1 + 1 * (k - (p + 1)) = k := by omega
      rw [this]
      simp
    · rw [List.filter_cons_of_neg (by simpa using h)]
      have h1 : k - (p + 1) = 0 := by omega
      have h2 : k + 1 - (p + 1) = 0 := by omega
      rw [h1, h2]
      simp

theorem buildPrePost_eq {n p : Nat} (h : p < n) :
    buildPrePost n p = (List.range p, List.range' (p + 1) (n - (p + 1))) := by
  unfold buildPrePost
  rw [buildPrePost_foldl]
  rw [range_filter_lt, range_filter_gt]
  simp only [List.nil_append]
  have : min p n = p := by omega
  rw [this]

theorem range_reverse_succ (k : Nat) :
    (List.range (k + 1)).reverse = k :: (List.range k).reverse := by
  rw [List.range_succ, List.reverse_append]
  simp

theorem interleave_spec_aux (n p : Nat) : ∀ (fuel i : Nat), n + p + 1 - i ≤ fuel → 1 ≤ i →
    interleaveIds (List.range' (p + i) (n - (p + i))) ((List.range (p + 1 - i)).reverse)
      = specLoadAux n p i := by
  intro fuel
  induction fuel with
  | zero =>
    intro i hle h1
    rw [specLoadAux]
    have hni : ¬ p + i < n := by omega
    have hip : ¬ i ≤ p := by omega
    rw [if_neg hni, if_neg hip]
    have e1 : n - (p + i) = 0 := by omega
    have e2 : p + 1 - i = 0 := by omega
    rw [e1, e2, List.range'_zero, List.range_zero]
    rfl
  | succ fuel ih =>
    intro i hle h1
    rw [specLoadAux]
    by_cases hni : p + i < n
    · by_cases hip : i ≤ p
      · rw [if_pos hni, if_pos hip]
        have e1 : n - (p + i) = (n - (p + i) - 1) + 1 := by omega
        have e2 : p + 1 - i = (p - i) + 1 := by omega
        rw [e1, List.range'_succ, e2, range_reverse_succ]
        show (p + i) :: (p - i)
            :: interleaveIds (List.range' (p + i + 1) (n - (p + i) - 1)) (List.range (p - i)).reverse
          = (p + i) :: (p - i) :: specLoadAux n p (i + 1)
        have e3 : p + i + 1 = p + (i + 1) := by omega
        have e4 : n - (p + i) - 1 = n - (p + (i + 1)) := by omega
        have e5 : p - i = p + 1 - (i + 1) := by omega
        rw [e3, e4]
        nth_rewrite 2 [e5]
        rw [ih (i + 1) (by omega) (by omega)]
      · rw [if_pos hni, if_neg hip]
        have e1 : n - (p + i) = (n - (p + i) - 1) + 1 := by omega
        have e2 : p + 1 - i = 0 := by omega
        rw [e1, List.range'_succ, e2, List.range_zero]
        show (p + i) :: interleaveIds (List.range' (p + i + 1) (n - (p + i) - 1)) []
          = (p + i) :: specLoadAux n p (i + 1)
        have e3 : p + i + 1 = p + (i + 1) := by omega
        have e4 : n - (p + i) - 1 = n - (p + (i + 1)) := by omega
        have e5 : ([] : List Nat) = (List.range (p + 1 - (i + 1))).reverse := by
          have h5 : p + 1 - (i + 1) = 0 := by omega
          rw [h5, List.range_zero]
          rfl
        rw [e3, e4, e5]
        rw [ih (i + 1) (by omega) (by omega)]
    · by_cases hip : i ≤ p
      · rw [if_neg hni, if_pos hip]
        have e1 : n - (p + i) = 0 := by omega
        have e2 : p + 1 - i = (p - i) + 1 := by omega
        rw [e1, List.range'_zero, e2, range_reverse_succ]
        show (p - i) :: (List.range (p - i)).reverse = (p - i) :: specLoadAux n p (i + 1)
        have e3 : (List.range (p - i)).reverse
            = interleaveIds (List.range' (p + (i + 1)) (n - (p + (i + 1))))
                (List.range (p + 1 - (i + 1))).reverse := by
          have h3 : n - (p + (i + 1)) = 0 := by omega
          have h4 : p + 1 - (i + 1) = p - i := by omega
          rw [h3, h4, List.range'_zero]
          rfl
        rw [e3, ih (i + 1) (by omega) (by omega)]
      · rw [if_neg hni, if_neg hip]
        have e1 : n - (p + i) = 0 := by omega
        have e2 : p + 1 - i = 0 := by omega
        rw [e1, e2, List.range'_zero, List.range_zero]
        rfl

theorem interleaveIds_perm : ∀ (a b : List Nat), List.Perm (interleaveIds a b) (a ++ b) := by
  intro a
  induction a with
  | nil =>
    intro b
    show List.Perm b ([] ++ b)
    rw [List.nil_append]
  | cons x xs ih =>
    intro b
    cases b with
    | nil =>
      show List.Perm (x :: interleaveIds xs []) (x :: (xs ++ []))
      exact List.Perm.cons x (ih [])
    | cons y ys =>
      show List.Perm (x :: y :: interleaveIds xs ys) (x :: (xs ++ y :: ys))
      apply List.Perm.cons x
      exact (List.Perm.cons y (ih ys)).trans List.perm_middle.symm

/-- C6: the block-cache load queue for pivot bucket p over n buckets is
exactly the spec's outward-from-pivot sequence p, p+1, p-1, p+2, p-2, ...
(continuing with the remaining direction once one side is exhausted), and
it contains every bucket index 0..n-1 exactly once. -/
theorem C6_load_queue_outward_from_pivot (n p : Nat) (h : p < n) :
    loadQueueOf n p = specLoadOrder n p ∧ List.Perm (loadQueueOf n p) (List.range n) := by
  have hbp := buildPrePost_eq h
  constructor
  · unfold loadQueueOf specLoadOrder
    rw [hbp]
    show p :: interleaveIds (List.range' (p + 1) (n - (p + 1))) (List.range p).reverse
        = p :: specLoadAux n p 1
    have := interleave_spec_aux n p (n + p + 1 - 1) 1 (by omega) (by omega)
    have e1 : p + 1 - 1 = p := by omega
    rw [e1] at this
    rw [this]
  · unfold loadQueueOf
    rw [hbp]
    show List.Perm
      (p :: interleaveIds (List.range' (p + 1) (n - (p + 1))) (List.range p).reverse)
      (List.range n)
    have h1 : List.Perm
        (interleaveIds (List.range' (p + 1) (n - (p + 1))) (List.range p).reverse)
        (List.range' (p + 1) (n - (p + 1)) ++ (List.range p).reverse) :=
      interleaveIds_perm _ _
    have h2 : List.Perm
        (List.range' (p + 1) (n - (p + 1)) ++ (List.range p).reverse)
        (List.range p ++ List.range' (p + 1) (n - (p + 1))) :=
      (List.Perm.append_left _ (List.reverse_perm _)).trans List.perm_append_comm
    have h3 : List.range n = List.range p ++ [p] ++ List.range' (p + 1) (n - (p + 1)) := by
      rw [List.range_eq_range']
      have e : List.range' 0 n = List.range' 0 (p + 1) ++ List.range' (p + 1) (n - (p + 1)) := by
        have happ := List.range'_append 0 (p + 1) (n - (p + 1)) 1
        simp only [Nat.one_mul, Nat.zero_add] at happ
        rw [happ]
        congr 1
        omega
      rw [e, ← List.range_eq_range', List.range_succ]
    have h4 : List.Perm
        (List.range p ++ p :: List.range' (p + 1) (n - (p + 1)))
        (List.range n) := by
      rw [h3, List.append_assoc, List.singleton_append]
    exact (List.Perm.cons p (h1.trans h2)).trans (List.perm_middle.symm.trans h4)

theorem C6_witness :
    2 < 8 ∧ (loadQueueOf 8 2 = specLoadOrder 8 2 ∧ List.Perm (loadQueueOf 8 2) (List.range 8)) :=
  ⟨by decide, C6_load_queue_outward_from_pivot 8 2 (by decide)⟩

/-- DEFAULT_CACHE_SIZE_BYTES from IterablePlayer.ts: 1.0e9 bytes. -/
def DEFAULT_CACHE_SIZE_BYTES : Nat := 1000000000

/-- Sum of sizeInBytes over the resident (non-hole) blocks of the sparse
block array. -/
def residentBytes (blocks : List (Option Nat)) : Nat :=
  blocks.foldl (fun acc b => acc + b.getD 0) 0

/-- The per-message eviction loop of loadBlocks (lines 1020-1033): while
the load queue is non-empty and the running total plus the incoming
message size would exceed the budget, pop the last load-queue entry, clear
that block slot (a hole), and reclaim its bytes (clamped at zero, matching
Math.max(0, ...) with natural subtraction). -/
def evictLoop (budget msgSize : Nat) (blocks : List (Option Nat)) (queue : List Nat)
    (total : Nat) : List (Option Nat) × List Nat × Nat :=
  if h : queue ≠ [] ∧ budget < total + msgSize then
    let lastIdx := queue.getLast h.1
    match blocks[lastIdx]? with
    | some (some sz) =>
      evictLoop budget msgSize (blocks.set lastIdx none) queue.dropLast (total - sz)
    | _ =>
      evictLoop budget msgSize (blocks.set lastIdx none) queue.dropLast total
  else (blocks, queue, total)
termination_by queue.length
decreasing_by
  all_goals
    have hpos : 0 < queue.length := List.length_pos.mpr h.1
    simp only [List.length_dropLast]
    omega

/-- The player cache accounting state while loadBlocks runs: the sparse
block size array, the remaining load queue, the running
totalBlockSizeBytes, and the sizeInBytes accumulator of the block being
loaded. -/
structure CacheSt where
  blocks : List (Option Nat)
  queue : List Nat
  total : Nat
  cur : Nat
deriving DecidableEq, Repr

/-- Accounting for one message read while loading a block (lines
1015-1036): accumulate its size into sizeInBytes, evict under budget
pressure, then add the size to the running total. -/
def stepMsg (budget : Nat) (st : CacheSt) (msgSize : Nat) : CacheSt :=
  let r := evictLoop budget msgSize st.blocks st.queue st.total
  ⟨r.1, r.2.1, r.2.2 + msgSize, st.cur + msgSize⟩

/-- Read all messages of one block, recording after each message the
running total and the remaining load-queue length. -/
def loadBlockMsgs (budget : Nat) (st : CacheSt) :
    List Nat → CacheSt × List (Nat × Nat)
  | [] => (st, [])
  | s :: rest =>
    let st' := stepMsg budget st s
    let r := loadBlockMsgs budget st' rest
    (r.1, (st'.total, st'.queue.length) :: r.2)

theorem evictLoop_queue_le_aux (budget msgSize : Nat) :
    ∀ (fuel : Nat) (queue : List Nat) (blocks : List (Option Nat)) (total : Nat),
      queue.length ≤ fuel →
      (evictLoop budget msgSize blocks queue total).2.1.length ≤ queue.length := by
  intro fuel
  induction fuel with
  | zero =>
    intro queue blocks total hle
    have hq : queue = [] := by
      cases queue
      · rfl
      · simp at hle
    subst hq
    rw [evictLoop]
    simp
  | succ k ih =>
    intro queue blocks total hle
    rw [evictLoop]
    by_cases h : queue ≠ [] ∧ budget < total + msgSize
    · rw [dif_pos h]
      have hpos : 0 < queue.length := List.length_pos.mpr h.1
      have hdl : queue.dropLast.length = queue.length - 1 := List.length_dropLast queue
      dsimp only
      split
      · rename_i sz heq
        have hrec := ih queue.dropLast (blocks.set (queue.getLast h.1) none) (total - sz)
          (by omega)
        omega
      · have hrec := ih queue.dropLast (blocks.set (queue.getLast h.1) none) total (by omega)
        omega
    · rw [dif_neg h]

theorem evictLoop_queue_le (budget msgSize : Nat) (queue : List Nat)
    (blocks : List (Option Nat)) (total : Nat) :
    (evictLoop budget msgSize blocks queue total).2.1.length ≤ queue.length :=
  evictLoop_queue_le_aux budget msgSize queue.length queue blocks total (le_refl _)

theorem stepMsg_queue_le (budget : Nat) (st : CacheSt) (msgSize : Nat) :
    (stepMsg budget st msgSize).queue.length ≤ st.queue.length :=
  evictLoop_queue_le budget msgSize st.queue st.blocks st.total

theorem loadBlockMsgs_queue_le (budget : Nat) :
    ∀ (sizes : List Nat) (st : CacheSt),
      (loadBlockMsgs budget st sizes).1.queue.length ≤ st.queue.length := by
  intro sizes
  induction sizes with
  | nil => intro st; exact le_refl _
  | cons s rest ih =>
    intro st
    have h1 := stepMsg_queue_le budget st s
    have h2 := ih (stepMsg budget st s)
    exact le_trans h2 h1

/-- The outer loop of loadBlocks over its load queue (lines 948-1098, byte
accounting only): shift the next block id; skip it when all requested
topics are already present; otherwise read its messages (evicting under
budget pressure) and commit the block, adding the accumulated bytes to any
pre-existing partial block.  msgsFor gives the sizes of the messages each
block read yields; skip models the all-topics-present check.  Returns the
final block array, the final running total, and the per-message snapshots
of (running total, remaining queue length). -/
def loadBlocksBytes (budget : Nat) (msgsFor : Nat → List Nat) (skip : Nat → Bool) :
    List Nat → List (Option Nat) → Nat → List (Option Nat) × Nat × List (Nat × Nat)
  | [], blocks, total => (blocks, total, [])
  | idx :: queue, blocks, total =>
    if skip idx then loadBlocksBytes budget msgsFor skip queue blocks total
    else
      let existing := ((blocks.getD idx none).getD 0)
      let r := loadBlockMsgs budget ⟨blocks, queue, total, 0⟩ (msgsFor idx)
      let committed := r.1.blocks.set idx (some (r.1.cur + existing))
      let rest := loadBlocksBytes budget msgsFor skip r.1.queue committed r.1.total
      (rest.1, rest.2.1, r.2 ++ rest.2.2)
termination_by queue _ _ => queue.length
decreasing_by
  · simp
  · have := loadBlockMsgs_queue_le budget (msgsFor idx) ⟨blocks, queue, total, 0⟩
    simp at this ⊢
    omega

theorem evictLoop_post_aux (budget msgSize : Nat) :
    ∀ (fuel : Nat) (queue : List Nat) (blocks : List (Option Nat)) (total : Nat),
      queue.length ≤ fuel →
      (evictLoop budget msgSize blocks queue total).2.2 + msgSize ≤ budget ∨
        (evictLoop budget msgSize blocks queue total).2.1 = [] := by
  intro fuel
  induction fuel with
  | zero =>
    intro queue blocks total hle
    have hq : queue = [] := by
      cases queue
      · rfl
      · simp at hle
    subst hq
    rw [evictLoop]
    rw [dif_neg (by simp)]
    exact Or.inr rfl
  | succ k ih =>
    intro queue blocks total hle
    rw [evictLoop]
    by_cases h : queue ≠ [] ∧ budget < total + msgSize
    · rw [dif_pos h]
      have hpos : 0 < queue.length := List.length_pos.mpr h.1
      have hdl : queue.dropLast.length = queue.length - 1 := List.length_dropLast queue
      dsimp only
      split
      · exact ih queue.dropLast _ _ (by omega)
      · exact ih queue.dropLast _ _ (by omega)
    · rw [dif_neg h]
      dsimp only
      by_cases hq : queue = []
      · exact Or.inr hq
      · left
        have hnb : ¬ budget < total + msgSize := fun hb => h ⟨hq, hb⟩
        omega

theorem evictLoop_post (budget msgSize : Nat) (queue : List Nat)
    (blocks : List (Option Nat)) (total : Nat) :
    (evictLoop budget msgSize blocks queue total).2.2 + msgSize ≤ budget ∨
      (evictLoop budget msgSize blocks queue total).2.1 = [] :=
  evictLoop_post_aux budget msgSize queue.length queue blocks total (le_refl _)

/-- After accounting one message, the running total is within the budget
unless the load queue has been fully evicted. -/
theorem stepMsg_post (budget : Nat) (st : CacheSt) (msgSize : Nat) :
    (stepMsg budget st msgSize).total ≤ budget ∨ (stepMsg budget st msgSize).queue = [] := by
  have := evictLoop_post budget msgSize st.queue st.blocks st.total
  unfold stepMsg
  rcases this with h | h
  · left
    exact h
  · right
    exact h

theorem loadBlockMsgs_snapshots (budget : Nat) :
    ∀ (sizes : List Nat) (st : CacheSt),
      ∀ pr ∈ (loadBlockMsgs budget st sizes).2, pr.1 ≤ budget ∨ pr.2 = 0 := by
  intro sizes
  induction sizes with
  | nil =>
    intro st pr hpr
    simp [loadBlockMsgs] at hpr
  | cons s rest ih =>
    intro st pr hpr
    simp only [loadBlockMsgs, List.mem_cons] at hpr
    rcases hpr with rfl | hpr
    · rcases stepMsg_post budget st s with h | h
      · exact Or.inl h
      · right
        rw [h]
        rfl
    · exact ih (stepMsg budget st s) pr hpr

theorem loadBlocksBytes_snapshots_aux (budget : Nat) (msgsFor : Nat → List Nat)
    (skip : Nat → Bool) :
    ∀ (fuel : Nat) (queue : List Nat) (blocks : List (Option Nat)) (total : Nat),
      queue.length ≤ fuel →
      ∀ pr ∈ (loadBlocksBytes budget msgsFor skip queue blocks total).2.2,
        pr.1 ≤ budget ∨ pr.2 = 0 := by
  intro fuel
  induction fuel with
  | zero =>
    intro queue blocks total hle pr hpr
    have hq : queue = [] := by
      cases queue
      · rfl
      · simp at hle
    subst hq
    simp [loadBlocksBytes] at hpr
  | succ k ih =>
    intro queue blocks total hle pr hpr
    cases queue with
    | nil => simp [loadBlocksBytes] at hpr
    | cons idx rest =>
      rw [loadBlocksBytes] at hpr
      by_cases hskip : skip idx
      · rw [if_pos hskip] at hpr
        exact ih rest blocks total (by simp at hle; omega) pr hpr
      · rw [if_neg hskip] at hpr
        simp only [List.mem_append] at hpr
        rcases hpr with hpr | hpr
        · exact loadBlockMsgs_snapshots budget (msgsFor idx) ⟨blocks, rest, total, 0⟩ pr hpr
        · have hql := loadBlockMsgs_queue_le budget (msgsFor idx) ⟨blocks, rest, total, 0⟩
          exact ih _ _ _ (by simp at hle hql ⊢; omega) pr hpr

theorem residentBytes_foldl : ∀ (l : List (Option Nat)) (a : Nat),
    l.foldl (fun acc b => acc + b.getD 0) a = a + residentBytes l := by
  intro l
  induction l with
  | nil =>
    intro a
    simp [residentBytes]
  | cons b tl ih =>
    intro a
    rw [List.foldl_cons, ih]
    have h2 : residentBytes (b :: tl) = 0 + b.getD 0 + residentBytes tl := by
      show List.foldl (fun acc x => acc + x.getD 0) 0 (b :: tl) = _
      rw [List.foldl_cons, ih]
    omega

theorem residentBytes_cons (b : Option Nat) (tl : List (Option Nat)) :
    residentBytes (b :: tl) = b.getD 0 + residentBytes tl := by
  show List.foldl (fun acc x => acc + x.getD 0) 0 (b :: tl) = _
  simp only [List.foldl_cons]
  rw [residentBytes_foldl]
  omega

/-- Writing one slot of the sparse block array moves the resident byte sum
by exactly the difference between the old and the new slot contents. -/
theorem residentBytes_set : ∀ (blocks : List (Option Nat)) (i : Nat) (w : Option Nat),
    residentBytes (blocks.set i w) + (blocks[i]?.getD none).getD 0
      = residentBytes blocks + (if i < blocks.length then w.getD 0 else 0) := by
  intro blocks
  induction blocks with
  | nil =>
    intro i w
    simp [residentBytes]
  | cons b tl ih =>
    intro i w
    cases i with
    | zero =>
      have hL : (b :: tl).set 0 w = w :: tl := rfl
      have hG : (b :: tl)[0]? = some b := by simp
      rw [hL, hG, residentBytes_cons, residentBytes_cons]
      simp only [Option.getD_some, List.length_cons]
      rw [if_pos (by omega)]
      omega
    | succ j =>
      have hL : (b :: tl).set (j + 1) w = b :: tl.set j w := rfl
      have hG : (b :: tl)[j + 1]? = tl[j]? := by simp
      rw [hL, hG, residentBytes_cons, residentBytes_cons]
      have hI := ih j w
      simp only [List.length_cons]
      by_cases hj : j < tl.length
      · rw [if_pos (by omega)]
        rw [if_pos hj] at hI
        omega
      · rw [if_neg (by omega)]
        rw [if_neg hj] at hI
        omega

/-- The eviction loop keeps the running total equal to the resident byte
sum plus the in-progress bytes, leaves a prefix of the load queue,
preserves the block array length, and touches no slot outside the load
queue. -/
theorem evictLoop_acct_aux (budget msgSize : Nat) :
    ∀ (fuel : Nat) (queue : List Nat) (blocks : List (Option Nat)) (total extra : Nat),
      queue.length ≤ fuel →
      (∀ i ∈ queue, i < blocks.length) →
      total = residentBytes blocks + extra →
      (evictLoop budget msgSize blocks queue total).2.2
          = residentBytes (evictLoop budget msgSize blocks queue total).1 + extra ∧
      (∃ k, (evictLoop budget msgSize blocks queue total).2.1 = queue.take k) ∧
      (evictLoop budget msgSize blocks queue total).1.length = blocks.length ∧
      (∀ i, i ∉ queue →
        (evictLoop budget msgSize blocks queue total).1[i]? = blocks[i]?) := by
  intro fuel
  induction fuel with
  | zero =>
    intro queue blocks total extra hle hb ht
    have hq : queue = [] := by
      cases queue
      · rfl
      · simp at hle
    subst hq
    rw [evictLoop, dif_neg (by simp)]
    exact ⟨ht, ⟨0, rfl⟩, rfl, fun _ _ => rfl⟩
  | succ k ih =>
    intro queue blocks total extra hle hb ht
    rw [evictLoop]
    by_cases h : queue ≠ [] ∧ budget < total + msgSize
    · rw [dif_pos h]
      have hpos : 0 < queue.length := List.length_pos.mpr h.1
      have hdl : queue.dropLast.length = queue.length - 1 := List.length_dropLast queue
      have hmemL : queue.getLast h.1 ∈ queue := List.getLast_mem h.1
      have hlt : queue.getLast h.1 < blocks.length := hb _ hmemL
      have hbounds' : ∀ i ∈ queue.dropLast, i < (blocks.set (queue.getLast h.1) none).length := by
        intro i hi
        rw [List.length_set]
        exact hb i ((List.dropLast_sublist queue).subset hi)
      have houtside : ∀ i, i ∉ queue →
          (blocks.set (queue.getLast h.1) none)[i]? = blocks[i]? := by
        intro i hi
        apply List.getElem?_set_ne
        intro he
        rw [he] at hmemL
        exact hi hmemL
      dsimp only
      split
      · rename_i sz hB
        have hset := residentBytes_set blocks (queue.getLast h.1) none
        rw [hB, if_pos hlt] at hset
        simp only [Option.getD_some, Option.getD_none] at hset
        have ht' : total - sz
            = residentBytes (blocks.set (queue.getLast h.1) none) + extra := by
          omega
        obtain ⟨e1, ⟨k', e2⟩, e3, e4⟩ :=
          ih queue.dropLast (blocks.set (queue.getLast h.1) none) (total - sz) extra
            (by omega) hbounds' ht'
        refine ⟨e1, ⟨min k' (queue.length - 1), ?_⟩, by rw [e3, List.length_set], ?_⟩
        · rw [e2, List.dropLast_eq_take, List.take_take]
        · intro i hi
          rw [e4 i (fun hmem => hi ((List.dropLast_sublist queue).subset hmem))]
          exact houtside i hi
      · rename_i hB
        have hc : (blocks[queue.getLast h.1]?.getD none).getD 0 = 0 := by
          rcases hE : blocks[queue.getLast h.1]? with _ | v
          · rfl
          · rcases v with _ | sz
            · rfl
            · exact (hB sz hE).elim
        have hset := residentBytes_set blocks (queue.getLast h.1) none
        rw [hc, if_pos hlt] at hset
        simp only [Option.getD_none] at hset
        have ht' : total = residentBytes (blocks.set (queue.getLast h.1) none) + extra := by
          omega
        obtain ⟨e1, ⟨k', e2⟩, e3, e4⟩ :=
          ih queue.dropLast (blocks.set (queue.getLast h.1) none) total extra
            (by omega) hbounds' ht'
        refine ⟨e1, ⟨min k' (queue.length - 1), ?_⟩, by rw [e3, List.length_set], ?_⟩
        · rw [e2, List.dropLast_eq_take, List.take_take]
        · intro i hi
          rw [e4 i (fun hmem => hi ((List.dropLast_sublist queue).subset hmem))]
          exact houtside i hi
    · rw [dif_neg h]
      exact ⟨ht, ⟨queue.length, (List.take_length queue).symm⟩, rfl, fun _ _ => rfl⟩

theorem stepMsg_acct (budget : Nat) (st : CacheSt) (s : Nat)
    (hb : ∀ i ∈ st.queue, i < st.blocks.length)
    (ht : st.total = residentBytes st.blocks + st.cur) :
    (stepMsg budget st s).total
        = residentBytes (stepMsg budget st s).blocks + (stepMsg budget st s).cur ∧
    (∃ k, (stepMsg budget st s).queue = st.queue.take k) ∧
    (stepMsg budget st s).blocks.length = st.blocks.length ∧
    (∀ i, i ∉ st.queue → (stepMsg budget st s).blocks[i]? = st.blocks[i]?) := by
  obtain ⟨h1, h2, h3, h4⟩ :=
    evictLoop_acct_aux budget s st.queue.length st.queue st.blocks st.total st.cur
      (le_refl _) hb ht
  unfold stepMsg
  exact ⟨by dsimp only; omega, h2, h3, h4⟩

theorem loadBlockMsgs_acct (budget : Nat) : ∀ (sizes : List Nat) (st : CacheSt),
    (∀ i ∈ st.queue, i < st.blocks.length) →
    st.total = residentBytes st.blocks + st.cur →
    (loadBlockMsgs budget st sizes).1.total
        = residentBytes (loadBlockMsgs budget st sizes).1.blocks
          + (loadBlockMsgs budget st sizes).1.cur ∧
    (∃ k, (loadBlockMsgs budget st sizes).1.queue = st.queue.take k) ∧
    (loadBlockMsgs budget st sizes).1.blocks.length = st.blocks.length ∧
    (∀ i, i ∉ st.queue → (loadBlockMsgs budget st sizes).1.blocks[i]? = st.blocks[i]?) := by
  intro sizes
  induction sizes with
  | nil =>
    intro st hb ht
    exact ⟨ht, ⟨st.queue.length, (List.take_length st.queue).symm⟩, rfl, fun _ _ => rfl⟩
  | cons s rest ih =>
    intro st hb ht
    obtain ⟨s1, ⟨k1, s2⟩, s3, s4⟩ := stepMsg_acct budget st s hb ht
    have hb' : ∀ i ∈ (stepMsg budget st s).queue, i < (stepMsg budget st s).blocks.length := by
      intro i hi
      rw [s3]
      rw [s2] at hi
      exact hb i (List.take_subset _ _ hi)
    obtain ⟨e1, ⟨k2, e2⟩, e3, e4⟩ := ih (stepMsg budget st s) hb' s1
    have hred : (loadBlockMsgs budget st (s :: rest)).1
        = (loadBlockMsgs budget (stepMsg budget st s) rest).1 := rfl
    rw [hred]
    refine ⟨e1, ⟨min k2 k1, ?_⟩, ?_, ?_⟩
    · rw [e2, s2, List.take_take]
    · rw [e3, s3]
    · intro i hi
      rw [e4 i (fun hmem => hi (by
        rw [s2] at hmem
        exact List.take_subset _ _ hmem))]
      exact s4 i hi

/-- Over a full loadBlocks run, the final running totalBlockSizeBytes
equals the resident byte sum of the final block array, provided the load
queue has no duplicate block ids, its ids address the block array, and the
initial total is the initial resident sum (as computed at line 940). -/
theorem loadBlocksBytes_acct_aux (budget : Nat) (msgsFor : Nat → List Nat)
    (skip : Nat → Bool) :
    ∀ (fuel : Nat) (queue : List Nat) (blocks : List (Option Nat)) (total : Nat),
      queue.length ≤ fuel → queue.Nodup →
      (∀ i ∈ queue, i < blocks.length) →
      total = residentBytes blocks →
      (loadBlocksBytes budget msgsFor skip queue blocks total).2.1
          = residentBytes (loadBlocksBytes budget msgsFor skip queue blocks total).1 ∧
      (loadBlocksBytes budget msgsFor skip queue blocks total).1.length = blocks.length := by
  intro fuel
  induction fuel with
  | zero =>
    intro queue blocks total hle hnd hb ht
    have hq : queue = [] := by
      cases queue
      · rfl
      · simp at hle
    subst hq
    simp only [loadBlocksBytes]
    exact ⟨ht, trivial⟩
  | succ k ih =>
    intro queue blocks total hle hnd hb ht
    cases queue with
    | nil =>
      simp only [loadBlocksBytes]
      exact ⟨ht, trivial⟩
    | cons idx rest =>
      rw [loadBlocksBytes]
      by_cases hskip : skip idx
      · rw [if_pos hskip]
        exact ih rest blocks total (by simp at hle; omega) (List.Nodup.of_cons hnd)
          (fun i hi => hb i (List.mem_cons_of_mem idx hi)) ht
      · rw [if_neg hskip]
        dsimp only
        have hb0 : ∀ i ∈ (⟨blocks, rest, total, 0⟩ : CacheSt).queue,
            i < (⟨blocks, rest, total, 0⟩ : CacheSt).blocks.length :=
          fun i hi => hb i (List.mem_cons_of_mem idx hi)
        have ht0 : (⟨blocks, rest, total, 0⟩ : CacheSt).total
            = residentBytes (⟨blocks, rest, total, 0⟩ : CacheSt).blocks
              + (⟨blocks, rest, total, 0⟩ : CacheSt).cur := by
          dsimp only
          omega
        obtain ⟨m1, ⟨km, m2⟩, m3, m4⟩ :=
          loadBlockMsgs_acct budget (msgsFor idx) ⟨blocks, rest, total, 0⟩ hb0 ht0
        have hidxrest : idx ∉ rest := (List.nodup_cons.mp hnd).1
        have hidxlen : idx < blocks.length := hb idx (List.mem_cons_self idx rest)
        have huntouched :
            (loadBlockMsgs budget ⟨blocks, rest, total, 0⟩ (msgsFor idx)).1.blocks[idx]?
              = blocks[idx]? := m4 idx hidxrest
        have hcommit : residentBytes
            ((loadBlockMsgs budget ⟨blocks, rest, total, 0⟩ (msgsFor idx)).1.blocks.set idx
              (some ((loadBlockMsgs budget ⟨blocks, rest, total, 0⟩ (msgsFor idx)).1.cur
                + (blocks.getD idx none).getD 0)))
            = (loadBlockMsgs budget ⟨blocks, rest, total, 0⟩ (msgsFor idx)).1.total := by
          have hset := residentBytes_set
            (loadBlockMsgs budget ⟨blocks, rest, total, 0⟩ (msgsFor idx)).1.blocks idx
            (some ((loadBlockMsgs budget ⟨blocks, rest, total, 0⟩ (msgsFor idx)).1.cur
              + (blocks.getD idx none).getD 0))
          rw [huntouched, if_pos (by rw [m3]; exact hidxlen)] at hset
          simp only [Option.getD_some] at hset
          rw [List.getD_eq_getElem?_getD] at hset ⊢
          omega
        have hbc : ∀ i ∈ (loadBlockMsgs budget ⟨blocks, rest, total, 0⟩ (msgsFor idx)).1.queue,
            i < ((loadBlockMsgs budget ⟨blocks, rest, total, 0⟩ (msgsFor idx)).1.blocks.set idx
              (some ((loadBlockMsgs budget ⟨blocks, rest, total, 0⟩ (msgsFor idx)).1.cur
                + (blocks.getD idx none).getD 0))).length := by
          intro i hi
          rw [List.length_set, m3]
          rw [m2] at hi
          exact hb i (List.mem_cons_of_mem idx (List.take_subset _ _ hi))
        have hndc : (loadBlockMsgs budget ⟨blocks, rest, total, 0⟩ (msgsFor idx)).1.queue.Nodup := by
          rw [m2]
          exact List.Nodup.sublist (List.take_sublist _ _) (List.Nodup.of_cons hnd)
        have hlc : (loadBlockMsgs budget ⟨blocks, rest, total, 0⟩ (msgsFor idx)).1.queue.length
            ≤ k := by
          rw [m2]
          dsimp only
          have h1 := (List.take_sublist km rest).length_le
          have h2 : rest.length ≤ k := by
            simp only [List.length_cons] at hle
            omega
          omega
        obtain ⟨f1, f2⟩ := ih _ _ _ hlc hndc hbc hcommit.symm
        refine ⟨f1, ?_⟩
        rw [f2, List.length_set, m3]

/-- C2 counterexample: loading a single block of three 600MB messages with
the real 1.0e9-byte budget leaves 1.8e9 resident bytes — the budget plus
one message's worth (1.6e9) is exceeded, refuting the claimed bound.  Once
the load queue is empty the eviction loop (lines 1020-1033) can no longer
run, so every further message is accumulated over budget. -/
theorem C2_counterexample :
    residentBytes
        (loadBlocksBytes DEFAULT_CACHE_SIZE_BYTES
          (fun _ => [600000000, 600000000, 600000000]) (fun _ => false)
          [0] [none] 0).1
      = 1800000000 ∧
    DEFAULT_CACHE_SIZE_BYTES + 600000000 < 1800000000 := by
  constructor
  · simp only [loadBlocksBytes, loadBlockMsgs, stepMsg]
    rw [evictLoop, evictLoop, evictLoop]
    simp [loadBlocksBytes, residentBytes, DEFAULT_CACHE_SIZE_BYTES]
  · decide

/-- C2 amended: after each message is accounted during block loading,
either the running total cache size (the code's totalBlockSizeBytes) is
within DEFAULT_CACHE_SIZE_BYTES, or the load queue has been fully evicted;
the budget can be exceeded — without bound — only once the load queue is
empty, because eviction only draws on blocks still in the queue.
Moreover the running total faithfully accounts the cache: when the load
queue addresses distinct in-range block slots and the initial total is the
initial resident byte sum (as recomputed at line 940), the final
totalBlockSizeBytes equals the sum of sizeInBytes over the resident blocks
of the final block array. -/
theorem C2_amended_budget_unless_queue_empty (budget : Nat) (msgsFor : Nat → List Nat)
    (skip : Nat → Bool) (queue : List Nat) (blocks : List (Option Nat)) (total : Nat) :
    (∀ pr ∈ (loadBlocksBytes budget msgsFor skip queue blocks total).2.2,
      pr.1 ≤ budget ∨ pr.2 = 0) ∧
    (queue.Nodup → (∀ i ∈ queue, i < blocks.length) → total = residentBytes blocks →
      (loadBlocksBytes budget msgsFor skip queue blocks total).2.1
        = residentBytes (loadBlocksBytes budget msgsFor skip queue blocks total).1) :=
  ⟨loadBlocksBytes_snapshots_aux budget msgsFor skip queue.length queue blocks total
    (le_refl _),
   fun hnd hb ht =>
    (loadBlocksBytes_acct_aux budget msgsFor skip queue.length queue blocks total
      (le_refl _) hnd hb ht).1⟩

theorem C2_amended_witness :
    (((6, 0) ∈ (loadBlocksBytes 10 (fun _ => [6]) (fun _ => false) [0] [none] 0).2.2) ∧
      ((6 : Nat) ≤ 10 ∨ (0 : Nat) = 0)) ∧
    ([0] : List Nat).Nodup ∧
    (∀ i ∈ ([0] : List Nat), i < ([none] : List (Option Nat)).length) ∧
    (0 : Nat) = residentBytes [none] ∧
    (loadBlocksBytes 10 (fun _ => [6]) (fun _ => false) [0] [none] 0).2.1
      = residentBytes (loadBlocksBytes 10 (fun _ => [6]) (fun _ => false) [0] [none] 0).1 := by
  have hmem : ((6, 0) : Nat × Nat)
      ∈ (loadBlocksBytes 10 (fun _ => [6]) (fun _ => false) [0] [none] 0).2.2 := by
    simp only [loadBlocksBytes, loadBlockMsgs, stepMsg]
    rw [evictLoop]
    simp [loadBlocksBytes]
  have hthm := C2_amended_budget_unless_queue_empty 10 (fun _ => [6]) (fun _ => false)
    [0] [none] 0
  exact ⟨⟨hmem, hthm.1 (6, 0) hmem⟩, by decide, by decide, by decide,
    hthm.2 (by decide) (by decide) (by decide)⟩

/-- The preload type of a subscription ("full" or "partial" in
players/types.ts; the spec's Subscription data model).  The constructor
part stands for the string value "partial". -/
inductive PreloadType where
  | full
  | part
deriving DecidableEq, Repr

/-- SubscribePayload as the player consumes it: a topic name and a preload
type. -/
structure SubscribePayload where
  topic : String
  preloadType : PreloadType
deriving DecidableEq, Repr

/-- The IterablePlayerState strings (preinit, initialize, start-delay,
start-play, idle, seek-backfill, play, close).  The constructor
initializing stands for the "initialize" state, playing for "play" and
closeState for "close". -/
inductive PState where
  | preinit
  | initializing
  | startDelay
  | startPlay
  | idle
  | seekBackfill
  | playing
  | closeState
deriving DecidableEq, Repr

/-- PlayerPresence values used by the player. -/
inductive Presence where
  | notPresent
  | initializing
  | reconnecting
  | present
  | error
deriving DecidableEq, Repr

inductive Severity where
  | warn
  | error
deriving DecidableEq, Repr

/-- PlayerProblem: severity and message. -/
structure Problem where
  severity : Severity
  message : String
deriving DecidableEq, Repr

/-- Topic: a name and a datatype. -/
structure Topic where
  name : String
  datatype : String
deriving DecidableEq, Repr

/-- The player fields the embedded operations read or write.  partTopics is
the field named _partialTopics in IterablePlayer.ts; abortActive models a
registered _abort controller and tickIteratorActive a live _tickIterator. -/
structure Player where
  state : PState
  nextState : Option PState
  hasError : Bool
  isPlaying : Bool
  startT : Nat
  endT : Nat
  currentTime : Option Nat
  seekTarget : Option Nat
  lastMessage : Option Msg
  messages : List Msg
  presence : Presence
  problems : List (String × Problem)
  subscriptions : List SubscribePayload
  allTopics : Finset String
  partTopics : Finset String
  providerTopics : List Topic
  closed : Bool
  abortActive : Bool
  tickIteratorActive : Bool
deriving DecidableEq

/-- PlayerProblemManager.addProblem: keyed idempotent upsert — an existing
key's problem is replaced in place, a new key is appended. -/
def addProblem (problems : List (String × Problem)) (key : String) (p : Problem) :
    List (String × Problem) :=
  if problems.any (fun kv => kv.1 == key) then
    problems.map (fun kv => if kv.1 == key then (key, p) else kv)
  else problems ++ [(key, p)]

/-- _setError (lines 376-384): set the sticky error flag, record the
keyed "global-error" problem, stop playing. -/
def setError (p : Player) (msg : String) : Player :=
  { p with
    hasError := true
    problems := addProblem p.problems "global-error" ⟨.error, msg⟩
    isPlaying := false }

/-- _setState (lines 302-317): record the requested next state, abort any
registered abort controller, and return (tear down) the tick iterator.
The actual switch happens when the run loop picks the request up. -/
def setState (p : Player) (s : PState) : Player :=
  { p with nextState := some s, abortActive := false, tickIteratorActive := false }

/-- The run loop picking up a pending state request (lines 331-333):
_state becomes the requested state and the request slot is cleared. -/
def processNextState (p : Player) : Player :=
  match p.nextState with
  | some s => { p with state := s, nextState := none }
  | none => p

/-- seekPlayback (lines 232-245): a no-op before initialization has
completed; otherwise clamp the target into the valid range, record it and
request the seek-backfill state. -/
def seekPlayback (p : Player) (t : Nat) : Player :=
  if p.state = .preinit ∨ p.state = .initializing then p
  else setState { p with seekTarget := some (clampTime t p.startT p.endT) } .seekBackfill

/-- The set of all subscribed topics (line 251). -/
def subsAllTopics (subs : List SubscribePayload) : Finset String :=
  (subs.map (·.topic)).toFinset

/-- The player's partial-topic set as the code computes it (lines 252-254):
topics of the subscriptions whose preloadType is NOT "partial". -/
def subsNonPartTopics (subs : List SubscribePayload) : Finset String :=
  ((subs.filter (fun s => decide (s.preloadType ≠ .part))).map (·.topic)).toFinset

/-- The partial-topic set as the spec words it (refinement counterpart for
C1): topics of the subscriptions whose preloadType IS "partial". -/
def specPartSubsTopics (subs : List SubscribePayload) : Finset String :=
  ((subs.filter (fun s => decide (s.preloadType = .part))).map (·.topic)).toFinset

/-- setSubscriptions (lines 247-262): store the subscriptions, compute the
all-topic and partial-topic sets, and skip the derived-set update when both
are value-equal to the current ones (lodash isEqual on Sets). -/
def setSubscriptionsM (p : Player) (subs : List SubscribePayload) : Player :=
  let p1 := { p with subscriptions := subs }
  let allTopics := subsAllTopics subs
  let partTopics := subsNonPartTopics subs
  if allTopics = p1.allTopics ∧ partTopics = p1.partTopics then p1
  else { p1 with allTopics := allTopics, partTopics := partTopics }

/-- The topic set loadBlocks pre-caches (line 892:
const topics = this._partialTopics). -/
def loadBlocksTopicSet (p : Player) : Finset String :=
  p.partTopics

/-- The activeData part of an emitted PlayerState. -/
structure ActiveData where
  messages : List Msg
  currentTime : Nat
  startTime : Nat
  endTime : Nat
  isPlaying : Bool
deriving DecidableEq, Repr

/-- An emitted PlayerState snapshot (the fields the claims concern). -/
structure Emission where
  presence : Presence
  problems : List (String × Problem)
  activeData : Option ActiveData
deriving DecidableEq, Repr

/-- _emitState (lines 608-665): with the sticky error flag set, emit
presence ERROR with activeData undefined; otherwise move the pending
message batch into the snapshot (clearing it) with the current player
fields, currentTime defaulting to the start time. -/
def emitState (p : Player) : Player × Emission :=
  if p.hasError then
    (p, ⟨.error, p.problems, none⟩)
  else
    ({ p with messages := [] },
      ⟨p.presence, p.problems,
        some ⟨p.messages, p.currentTime.getD p.startT, p.startT, p.endT, p.isPlaying⟩⟩)

/-- _stateSeekBackfill (lines 541-605) for a backfill that completes
before the 100ms watchdog (the claim ignores the transient watchdog
emission): take and clear the seek target, clear the buffered tick
message, fetch the backfill messages for all subscribed topics at the
target, and — unless a new state was requested meanwhile — set currentTime
to the target, emit, and request play or idle. -/
def stateSeekBackfill (bf : Finset String → Nat → List Msg) (p : Player) :
    Player × Option Emission :=
  match p.seekTarget with
  | none => (p, none)
  | some targetTime =>
    let p1 := { p with lastMessage := none, seekTarget := none }
    let msgs := bf p1.allTopics targetTime
    if p1.nextState.isSome then (p1, none)
    else
      let p2 := { p1 with messages := msgs, currentTime := some targetTime }
      let r := emitState p2
      (setState r.1 (if r.1.isPlaying then .playing else .idle), some r.2)

/-- Number.MAX_SAFE_INTEGER. -/
def MAX_SAFE_INTEGER : Nat := 9007199254740991

/-- The initialize() result fields the player model consumes. -/
structure InitResult where
  start : Nat
  endT : Nat
  topics : List Topic
  problems : List Problem
deriving DecidableEq, Repr

/-- One iteration of the duplicate-topic loop of _stateInitialize (lines
411-422): a topic whose name is already in the unique map is dropped and
reported as one warn problem; otherwise it is kept. -/
def dedupeStep (acc : List Topic × List Problem) (t : Topic) : List Topic × List Problem :=
  if acc.1.any (fun u => u.name == t.name) then
    (acc.1, acc.2 ++ [⟨.warn, "Duplicate topic: " ++ t.name⟩])
  else (acc.1 ++ [t], acc.2)

/-- The duplicate-topic pass of _stateInitialize (lines 410-424): first
occurrence of a name wins, each later occurrence is dropped and reported
as one warn problem.  The unique map's values in insertion order are the
kept topics. -/
def dedupeTopics (topics : List Topic) : List Topic × List Problem :=
  topics.foldl dedupeStep ([], [])

/-- Deduplication as the spec words it (refinement counterpart for C8):
keep the first occurrence of each topic name, discard the rest. -/
def specDedupKeepFirst : List Topic → List Topic
  | [] => []
  | t :: ts => t :: specDedupKeepFirst (ts.filter (fun u => decide (u.name ≠ t.name)))
termination_by l => l.length
decreasing_by
  have := List.length_filter_le (fun u => decide (u.name ≠ t.name)) ts
  simp only [List.length_cons]
  omega

/-- Register the source-reported and duplicate-topic problems under the
keys init-problem-0, init-problem-1, ... (lines 427-431). -/
def addProblemsIndexed (problems : List (String × Problem)) (ps : List Problem) :
    List (String × Problem) :=
  (ps.foldl
    (fun (acc : List (String × Problem) × Nat) pr =>
      (addProblem acc.1 ("init-problem-" ++ toString acc.2) pr, acc.2 + 1))
    (problems, 0)).1

/-- The total inclusive nanosecond span of the source (line 434). -/
def totalRangeNanos (start endT : Nat) : Nat := endT - start + 1

/-- The time-range overflow test of line 435, totalNs > 0.9 *
Number.MAX_SAFE_INTEGER, modelled over the rationals as
10 * totalNs > 9 * MAX_SAFE_INTEGER (exact arithmetic in place of the
floating-point product). -/
def rangeTooLong (totalNs : Nat) : Bool :=
  9 * MAX_SAFE_INTEGER < 10 * totalNs

/-- _stateInitialize (lines 387-455), state mutation only: a failing
initialize() lands in the catch and becomes the sticky global error;
otherwise the time range, topics (deduplicated) and problems are stored,
and a too-long time range throws inside the try, landing in the same
catch. -/
def stateInitializeModel (init : Except String InitResult) (p : Player) : Player :=
  match init with
  | .error e => setError p ("Error initializing: " ++ e)
  | .ok r =>
    let p1 := { p with startT := r.start, endT := r.endT, currentTime := some r.start }
    let dres := dedupeTopics r.topics
    let p2 := { p1 with providerTopics := dres.1 }
    let p3 := { p2 with problems := addProblemsIndexed p2.problems (r.problems ++ dres.2) }
    if rangeTooLong (totalRangeNanos r.start r.endT) then
      setError p3 "Error initializing: Time range is too long to be supported"
    else p3

/-- _stateInitialize including its final emission and state request (lines
457-460): emit once more, then request start-delay only when no error was
recorded. -/
def stateInitializeRun (init : Except String InitResult) (p : Player) : Player × Emission :=
  let p' := stateInitializeModel init p
  let r := emitState p'
  (if r.1.hasError then r.1 else setState r.1 .startDelay, r.2)

/-- A player that has completed initialization and is idle, used by the
witnesses. -/
def samplePlayer : Player :=
  { state := .idle
    nextState := none
    hasError := false
    isPlaying := false
    startT := 10
    endT := 100
    currentTime := some 20
    seekTarget := none
    lastMessage := none
    messages := []
    presence := .present
    problems := []
    subscriptions := []
    allTopics := ∅
    partTopics := ∅
    providerTopics := []
    closed := false
    abortActive := false
    tickIteratorActive := false }

/-- C10: calling seekPlayback while the state machine is in preinit or
initialize is a complete no-op — no field of the player changes, no seek
target is recorded, no state transition is requested, no abort is
issued. -/
theorem C10_seek_before_init_noop (p : Player) (t : Nat)
    (h : p.state = .preinit ∨ p.state = .initializing) :
    seekPlayback p t = p := by
  unfold seekPlayback
  rw [if_pos h]

theorem C10_witness :
    (({ samplePlayer with state := .preinit } : Player).state = .preinit ∨
      ({ samplePlayer with state := .preinit } : Player).state = .initializing) ∧
    seekPlayback { samplePlayer with state := .preinit } 55
      = { samplePlayer with state := .preinit } :=
  ⟨Or.inl rfl, C10_seek_before_init_noop { samplePlayer with state := .preinit } 55
    (Or.inl rfl)⟩

/-- C1 counterexample: a single subscription with preloadType "partial"
produces an empty partial-topic set (the loadBlocks topic set), while the
claim requires it to be exactly that subscription's topic.  The filter at
line 253 keeps subscriptions whose preloadType is NOT "partial". -/
theorem C1_counterexample :
    loadBlocksTopicSet (setSubscriptionsM samplePlayer [⟨"A", .part⟩])
        ≠ specPartSubsTopics [⟨"A", .part⟩] ∧
      loadBlocksTopicSet (setSubscriptionsM samplePlayer [⟨"A", .part⟩]) = ∅ ∧
      specPartSubsTopics [⟨"A", .part⟩] = {"A"} := by
  refine ⟨?_, ?_, ?_⟩ <;> decide

/-- C1 amended: for every call to setSubscriptions, the partial-topic set
used for block pre-caching (the loadBlocks topic set) is exactly the set
of topics of the subscriptions whose preloadType is NOT "partial" — the
complement of what the claim states.  This holds on both branches of the
value-equality early return. -/
theorem C1_amended_non_partial_topics (p : Player) (subs : List SubscribePayload) :
    loadBlocksTopicSet (setSubscriptionsM p subs) = subsNonPartTopics subs := by
  unfold loadBlocksTopicSet setSubscriptionsM
  dsimp only
  split
  · rename_i h
    exact h.2.symm
  · rfl

/-- C4: for a player past initialization, an uninterrupted
seekPlayback(t) followed by the seek-backfill state (backfill completing
before the watchdog) emits activeData whose currentTime is
clamp(t, start, end) and whose message batch is exactly the source's
backfill result for all subscribed topics at that target. -/
theorem C4_seek_backfill_emission (p : Player) (t : Nat)
    (bf : Finset String → Nat → List Msg)
    (hstate : ¬ (p.state = .preinit ∨ p.state = .initializing))
    (herr : p.hasError = false) :
    (stateSeekBackfill bf (processNextState (seekPlayback p t))).2
      = some ⟨p.presence, p.problems,
          some ⟨bf p.allTopics (clampTime t p.startT p.endT),
            clampTime t p.startT p.endT, p.startT, p.endT, p.isPlaying⟩⟩ := by
  unfold seekPlayback
  rw [if_neg hstate]
  unfold setState processNextState stateSeekBackfill emitState
  simp [herr]

theorem C4_witness :
    (¬ (samplePlayer.state = .preinit ∨ samplePlayer.state = .initializing)) ∧
    samplePlayer.hasError = false ∧
    (stateSeekBackfill (fun _ _ => [⟨99, 7⟩])
        (processNextState (seekPlayback samplePlayer 250))).2
      = some ⟨samplePlayer.presence, samplePlayer.problems,
          some ⟨(fun (_ : Finset String) (_ : Nat) => [(⟨99, 7⟩ : Msg)]) samplePlayer.allTopics
              (clampTime 250 samplePlayer.startT samplePlayer.endT),
            clampTime 250 samplePlayer.startT samplePlayer.endT,
            samplePlayer.startT, samplePlayer.endT, samplePlayer.isPlaying⟩⟩ :=
  ⟨by decide, by decide,
    C4_seek_backfill_emission samplePlayer 250 (fun _ _ => [⟨99, 7⟩]) (by decide) (by decide)⟩

/-- A keyed upsert always leaves the key present with the new problem. -/
theorem mem_addProblem (ps : List (String × Problem)) (k : String) (pr : Problem) :
    (k, pr) ∈ addProblem ps k pr := by
  unfold addProblem
  split
  · rename_i hany
    rw [List.any_eq_true] at hany
    obtain ⟨kv, hmem, hkey⟩ := hany
    exact List.mem_map.mpr ⟨kv, hmem, by rw [if_pos hkey]⟩
  · simp

/-- C7: if source initialization fails, or the total time range exceeds
0.9 * MAX_SAFE_INTEGER nanoseconds, the player sets the sticky error flag,
stops playing, records the keyed "global-error" problem, requests no
further state (no retry), and the resulting emission — like every
emission of a player whose error flag is set — has presence ERROR with
activeData undefined. -/
theorem C7_fatal_initialization_error (p : Player) (init : Except String InitResult)
    (hfail : (∃ e, init = .error e) ∨
      (∃ r, init = .ok r ∧ rangeTooLong (totalRangeNanos r.start r.endT) = true)) :
    (stateInitializeRun init p).1.hasError = true ∧
    (stateInitializeRun init p).1.isPlaying = false ∧
    (∃ msg, ("global-error", (⟨.error, msg⟩ : Problem))
      ∈ (stateInitializeRun init p).1.problems) ∧
    (stateInitializeRun init p).2.presence = .error ∧
    (stateInitializeRun init p).2.activeData = none ∧
    (stateInitializeRun init p).1.nextState = p.nextState ∧
    (∀ q : Player, q.hasError = true →
      (emitState q).2.presence = .error ∧ (emitState q).2.activeData = none) := by
  have hemit : ∀ q : Player, q.hasError = true →
      (emitState q).2.presence = .error ∧ (emitState q).2.activeData = none := by
    intro q hq
    unfold emitState
    rw [if_pos hq]
    exact ⟨rfl, rfl⟩
  rcases hfail with ⟨e, rfl⟩ | ⟨r, rfl, htoolong⟩
  · unfold stateInitializeRun stateInitializeModel
    dsimp only
    have herr : (setError p ("Error initializing: " ++ e)).hasError = true := rfl
    rw [show emitState (setError p ("Error initializing: " ++ e))
        = (setError p ("Error initializing: " ++ e),
            ⟨.error, (setError p ("Error initializing: " ++ e)).problems, none⟩) from by
      unfold emitState
      rw [if_pos herr]]
    dsimp only
    rw [if_pos herr]
    refine ⟨rfl, rfl, ⟨"Error initializing: " ++ e, ?_⟩, rfl, rfl, rfl, hemit⟩
    exact mem_addProblem p.problems "global-error" _
  · unfold stateInitializeRun stateInitializeModel
    dsimp only
    rw [if_pos htoolong]
    set p3 : Player :=
      { p with
        startT := r.start
        endT := r.endT
        currentTime := some r.start
        providerTopics := (dedupeTopics r.topics).1
        problems := addProblemsIndexed p.problems (r.problems ++ (dedupeTopics r.topics).2) }
      with hp3
    have herr : (setError p3 "Error initializing: Time range is too long to be supported").hasError
        = true := rfl
    rw [show emitState (setError p3 "Error initializing: Time range is too long to be supported")
        = (setError p3 "Error initializing: Time range is too long to be supported",
            ⟨.error,
              (setError p3 "Error initializing: Time range is too long to be supported").problems,
              none⟩) from by
      unfold emitState
      rw [if_pos herr]]
    dsimp only
    rw [if_pos herr]
    refine ⟨rfl, rfl,
      ⟨"Error initializing: Time range is too long to be supported", ?_⟩, rfl, rfl, rfl, hemit⟩
    exact mem_addProblem p3.problems "global-error" _

theorem C7_witness :
    ((∃ e, (Except.error "boom" : Except String InitResult) = .error e) ∨
      (∃ r, (Except.error "boom" : Except String InitResult) = .ok r ∧
        rangeTooLong (totalRangeNanos r.start r.endT) = true)) ∧
    ((stateInitializeRun (Except.error "boom") samplePlayer).1.hasError = true ∧
      (stateInitializeRun (Except.error "boom") samplePlayer).1.isPlaying = false ∧
      (∃ msg, ("global-error", (⟨.error, msg⟩ : Problem))
        ∈ (stateInitializeRun (Except.error "boom") samplePlayer).1.problems) ∧
      (stateInitializeRun (Except.error "boom") samplePlayer).2.presence = .error ∧
      (stateInitializeRun (Except.error "boom") samplePlayer).2.activeData = none ∧
      (stateInitializeRun (Except.error "boom") samplePlayer).1.nextState
        = samplePlayer.nextState ∧
      (∀ q : Player, q.hasError = true →
        (emitState q).2.presence = .error ∧ (emitState q).2.activeData = none)) :=
  ⟨Or.inl ⟨"boom", rfl⟩,
    C7_fatal_initialization_error samplePlayer (Except.error "boom") (Or.inl ⟨"boom", rfl⟩)⟩

/-- The message pipeline's per-player tick bookkeeping: the current player
identity, whether the previous snapshot's resolve function is still
outstanding, and the last accepted raw player state. -/
structure PipelineState where
  currentPlayerId : Option Nat
  resolvePending : Bool
  rawState : Nat
deriving DecidableEq, Repr

inductive ListenerOutcome where
  | resolvedImmediately
  | protocolError
  | accepted
deriving DecidableEq, Repr

/-- The setListener callback of MessagePipelineProvider (part_001 lines
201-231): an emission from a player that is no longer the current player
resolves immediately without touching pipeline state; an emission while
the previous snapshot's resolve function is still outstanding throws —
"New playerState was emitted before last playerState was rendered" — with
the state unchanged; otherwise the snapshot is accepted and a new resolve
function becomes outstanding. -/
def onPlayerEmit (st : PipelineState) (emitterId : Nat) (newState : Nat) :
    ListenerOutcome × PipelineState :=
  if st.currentPlayerId ≠ some emitterId then (.resolvedImmediately, st)
  else if st.resolvePending then (.protocolError, st)
  else (.accepted, { st with resolvePending := true, rawState := newState })

/-- C9: a new PlayerState emitted while the previous one's resolve
function is outstanding for the same player raises the protocol-violation
error and changes nothing; an emission from a player that is no longer
current resolves immediately and changes nothing. -/
theorem C9_pipeline_protocol_violation (st : PipelineState) (pid newState : Nat) :
    (st.currentPlayerId = some pid → st.resolvePending = true →
      onPlayerEmit st pid newState = (.protocolError, st)) ∧
    (st.currentPlayerId ≠ some pid →
      onPlayerEmit st pid newState = (.resolvedImmediately, st)) := by
  constructor
  · intro hcur hpend
    unfold onPlayerEmit
    rw [if_neg (by simp [hcur]), if_pos hpend]
  · intro hne
    unfold onPlayerEmit
    rw [if_pos hne]

theorem C9_witness :
    onPlayerEmit ⟨some 1, true, 0⟩ 1 42 = (.protocolError, ⟨some 1, true, 0⟩) ∧
    onPlayerEmit ⟨some 2, false, 0⟩ 1 42 = (.resolvedImmediately, ⟨some 2, false, 0⟩) :=
  ⟨(C9_pipeline_protocol_violation ⟨some 1, true, 0⟩ 1 42).1 rfl rfl,
    (C9_pipeline_protocol_violation ⟨some 2, false, 0⟩ 1 42).2 (by decide)⟩

theorem specDedup_mem_aux : ∀ (fuel : Nat) (l : List Topic), l.length ≤ fuel →
    ∀ x ∈ specDedupKeepFirst l, x ∈ l := by
  intro fuel
  induction fuel with
  | zero =>
    intro l hle x hx
    have hl : l = [] := by
      cases l
      · rfl
      · simp at hle
    subst hl
    rw [specDedupKeepFirst] at hx
    exact absurd hx (List.not_mem_nil x)
  | succ k ih =>
    intro l hle x hx
    cases l with
    | nil =>
      rw [specDedupKeepFirst] at hx
      exact absurd hx (List.not_mem_nil x)
    | cons t ts =>
      rw [specDedupKeepFirst] at hx
      rcases List.mem_cons.mp hx with rfl | hx'
      · exact List.mem_cons_self _ _
      · have hlen := List.length_filter_le (fun u => decide (u.name ≠ t.name)) ts
        have hmem := ih _ (by simp at hle; omega) x hx'
        exact List.mem_cons_of_mem t (List.mem_of_mem_filter hmem)

theorem specDedup_nodup_aux : ∀ (fuel : Nat) (l : List Topic), l.length ≤ fuel →
    ((specDedupKeepFirst l).map (fun t => t.name)).Nodup := by
  intro fuel
  induction fuel with
  | zero =>
    intro l hle
    have hl : l = [] := by
      cases l
      · rfl
      · simp at hle
    subst hl
    rw [specDedupKeepFirst]
    simp
  | succ k ih =>
    intro l hle
    cases l with
    | nil =>
      rw [specDedupKeepFirst]
      simp
    | cons t ts =>
      rw [specDedupKeepFirst, List.map_cons]
      have hlen := List.length_filter_le (fun u => decide (u.name ≠ t.name)) ts
      apply List.nodup_cons.mpr
      constructor
      · intro hmem
        obtain ⟨y, hy, hyn⟩ := List.mem_map.mp hmem
        have hyf := specDedup_mem_aux _ _ (le_refl _) y hy
        have := List.of_mem_filter hyf
        simp only [decide_eq_true_eq] at this
        exact this hyn
      · exact ih _ (by simp at hle; omega)

theorem dedupe_foldl_topics : ∀ (l : List Topic) (seen : List Topic) (probs : List Problem),
    (l.foldl dedupeStep (seen, probs)).1
      = seen ++ specDedupKeepFirst
          (l.filter (fun t => !(seen.any (fun u => u.name == t.name)))) := by
  intro l
  induction l with
  | nil =>
    intro seen probs
    rw [List.foldl_nil, List.filter_nil, specDedupKeepFirst, List.append_nil]
  | cons t ts ih =>
    intro seen probs
    rw [List.foldl_cons]
    by_cases hany : seen.any (fun u => u.name == t.name) = true
    · rw [show dedupeStep (seen, probs) t
          = (seen, probs ++ [⟨.warn, "Duplicate topic: " ++ t.name⟩]) from by
        unfold dedupeStep
        rw [if_pos hany]]
      rw [ih, List.filter_cons_of_neg (by simp [hany])]
    · have hanyf : seen.any (fun u => u.name == t.name) = false := by
        cases h : seen.any (fun u => u.name == t.name)
        · rfl
        · exact absurd h hany
      rw [show dedupeStep (seen, probs) t = (seen ++ [t], probs) from by
        unfold dedupeStep
        rw [if_neg hany]]
      rw [ih, List.filter_cons_of_pos (by simp [hanyf])]
      rw [specDedupKeepFirst]
      have hfe : ts.filter (fun x => !((seen ++ [t]).any (fun u => u.name == x.name)))
          = (ts.filter (fun x => !(seen.any (fun u => u.name == x.name)))).filter
              (fun u => decide (u.name ≠ t.name)) := by
        rw [List.filter_filter]
        apply List.filter_congr
        intro x _
        simp only [List.any_append, List.any_cons, List.any_nil, Bool.or_false, Bool.not_or]
        by_cases h2 : t.name = x.name
        · simp [h2]
        · have hne : (t.name == x.name) = false := by
            simp [h2]
          have hne2 : x.name ≠ t.name := fun h => h2 h.symm
          simp [hne, hne2, Bool.and_comm]
      rw [hfe, List.append_assoc, List.singleton_append]

theorem dedupe_foldl_len : ∀ (l : List Topic) (seen : List Topic) (probs : List Problem),
    (l.foldl dedupeStep (seen, probs)).1.length + (l.foldl dedupeStep (seen, probs)).2.length
      = seen.length + probs.length + l.length := by
  intro l
  induction l with
  | nil =>
    intro seen probs
    simp
  | cons t ts ih =>
    intro seen probs
    rw [List.foldl_cons]
    by_cases hany : seen.any (fun u => u.name == t.name) = true
    · rw [show dedupeStep (seen, probs) t
          = (seen, probs ++ [⟨.warn, "Duplicate topic: " ++ t.name⟩]) from by
        unfold dedupeStep
        rw [if_pos hany]]
      rw [ih]
      simp
      omega
    · rw [show dedupeStep (seen, probs) t = (seen ++ [t], probs) from by
        unfold dedupeStep
        rw [if_neg hany]]
      rw [ih]
      simp
      omega

theorem dedupe_foldl_warn : ∀ (l : List Topic) (seen : List Topic) (probs : List Problem),
    (∀ pr ∈ probs, pr.severity = .warn) →
    ∀ pr ∈ (l.foldl dedupeStep (seen, probs)).2, pr.severity = .warn := by
  intro l
  induction l with
  | nil =>
    intro seen probs hp pr hpr
    exact hp pr hpr
  | cons t ts ih =>
    intro seen probs hp pr hpr
    rw [List.foldl_cons] at hpr
    by_cases hany : seen.any (fun u => u.name == t.name) = true
    · rw [show dedupeStep (seen, probs) t
          = (seen, probs ++ [⟨.warn, "Duplicate topic: " ++ t.name⟩]) from by
        unfold dedupeStep
        rw [if_pos hany]] at hpr
      refine ih seen _ ?_ pr hpr
      intro q hq
      rcases List.mem_append.mp hq with hq' | hq'
      · exact hp q hq'
      · have : q = ⟨.warn, "Duplicate topic: " ++ t.name⟩ := by simpa using hq'
        rw [this]
    · rw [show dedupeStep (seen, probs) t = (seen ++ [t], probs) from by
        unfold dedupeStep
        rw [if_neg hany]] at hpr
      exact ih (seen ++ [t]) probs hp pr hpr

/-- C8: the deduplicated topic list of initialization keeps exactly the
first occurrence of each topic name (the spec's dedupe), contains each
name at most once, and one warn problem is reported per discarded
duplicate (their count is the number of dropped entries). -/
theorem C8_duplicate_topics (topics : List Topic) :
    (dedupeTopics topics).1 = specDedupKeepFirst topics ∧
    (((dedupeTopics topics).1.map (fun t => t.name)).Nodup) ∧
    (dedupeTopics topics).2.length = topics.length - (dedupeTopics topics).1.length ∧
    ∀ pr ∈ (dedupeTopics topics).2, pr.severity = .warn := by
  have h1 : (dedupeTopics topics).1 = specDedupKeepFirst topics := by
    unfold dedupeTopics
    rw [dedupe_foldl_topics, List.nil_append]
    congr 1
    apply List.filter_eq_self.mpr
    intro x _
    rfl
  have h4 : (dedupeTopics topics).1.length + (dedupeTopics topics).2.length
      = topics.length := by
    unfold dedupeTopics
    have := dedupe_foldl_len topics [] []
    simpa using this
  refine ⟨h1, ?_, by omega, ?_⟩
  · rw [h1]
    exact specDedup_nodup_aux topics.length topics (le_refl _)
  · exact dedupe_foldl_warn topics [] [] (fun pr hpr => absurd hpr (List.not_mem_nil pr))

theorem C8_witness :
    ((dedupeTopics [⟨"a", "T"⟩, ⟨"a", "S"⟩]).1
        = specDedupKeepFirst [⟨"a", "T"⟩, ⟨"a", "S"⟩]) ∧
    ((⟨.warn, "Duplicate topic: a"⟩ : Problem) ∈ (dedupeTopics [⟨"a", "T"⟩, ⟨"a", "S"⟩]).2) ∧
    (⟨.warn, "Duplicate topic: a"⟩ : Problem).severity = .warn :=
  ⟨(C8_duplicate_topics [⟨"a", "T"⟩, ⟨"a", "S"⟩]).1,
    by decide,
    (C8_duplicate_topics [⟨"a", "T"⟩, ⟨"a", "S"⟩]).2.2.2
      ⟨.warn, "Duplicate topic: a"⟩ (by decide)⟩

end IterablePlayerModel
